import Mathlib

/-! # asu.go: worker `asu1`, status decoding and the fan-in loop of `main`

A shallow embedding of `src/asu.go`.

* Go `error` values are identified with the text returned by their `Error()` method.
* The outside world (remote build service, artifact store, cancellation of the
  context, failures of local file operations) is an explicit input: every function
  below is a total, deterministic function of the answers the world gives.
* A run that would wait for an answer the input does not contain ends in the
  outcome `starved`; it stands for a run that has not returned (yet).
-/

namespace Asu

/-! ## Values sent on a worker channel -/

/-- A value of the dynamic type `any` as it is used by `asu1` and `main`: either
a `string` or an `error` (identified with its `Error()` text). -/
inductive Event where
  | str (s : String)
  | error (msg : String)
  deriving DecidableEq, Repr

/-- True for the `error` alternative. -/
def Event.isError : Event → Bool
  | .str _ => false
  | .error _ => true

/-! ## Wire types -/

/-- The `BuildStatus` struct (lines 343-349). -/
structure BuildStatus where
  Detail : String
  EnqueuedAt : String
  RequestHash : String
  Status : Int
  Type_ : String
  deriving DecidableEq, Repr

/-- One element of `BuildResponse.Images`; `asu1` reads `Name` and `SHA256`. -/
structure Image where
  Filesystem : String
  Name : String
  SHA256 : String
  SHA256Unsigned : String
  Type_ : String
  deriving DecidableEq, Repr

/-- The fields of `BuildResponse` (lines 362-397) that `asu1` reads:
`BinDir`, `BuildAt` (through `IsZero` only), `ImagePrefix`, `Images` and the raw
payload `Orig`. The remaining fields are decoded and never used. -/
structure BuildResponse where
  BinDir : String
  BuildAtIsZero : Bool
  ImagePrefix : String
  Images : List Image
  Orig : List Nat
  deriving DecidableEq, Repr

/-- The method `BuildStatus.Value` (lines 355-360): `fmt.Errorf("%v (status %d)", ...)`
for a code other than 200 and 202, the detail text otherwise. -/
def BuildStatus.Value (s : BuildStatus) : Event :=
  if s.Status ≠ 200 ∧ s.Status ≠ 202 then
    .error (s.Detail ++ " (status " ++ toString s.Status ++ ")")
  else
    .str s.Detail

/-! ## Observable actions of a worker -/

/-- What a worker does to the outside world, in program order. -/
inductive Act where
  /-- Channel send `ch <- e`. -/
  | send (e : Event)
  /-- A call of `asu1req` (POST /api/v1/build). -/
  | submit
  /-- A call of `asu1status(ctx, hash)` (GET /api/v1/build/hash). -/
  | status (hash : String)
  /-- The fixed delay `time.Sleep(time.Second)`. -/
  | sleep
  /-- The artifact request `http.DefaultClient.Do(req)` for the given URL. -/
  | get (url : String)
  deriving DecidableEq, Repr

/-- Network calls: submit, status poll, artifact request. -/
def Act.isNetwork : Act → Bool
  | .submit => true
  | .status _ => true
  | .get _ => true
  | _ => false

/-- The events sent on the channel, in order. -/
def events : List Act → List Event
  | [] => []
  | .send e :: t => e :: events t
  | _ :: t => events t

/-- The text of `context.Canceled`, the value of `ctx.Err()` once `ctx.Done()` is closed. -/
def ctxErr : String := "context canceled"

/-! ## The poll loop (lines 196-238) -/

/-- What `asu1req` / `asu1status` return: `("", err)`, or a `*BuildStatus`, or a
`*BuildResponse` (`asu1resp`, lines 438-457, returns nothing else, so the two
`panic("invalid type")` branches of the type switches are unreachable). -/
inductive Reply where
  | fail (err : String)
  | status (s : BuildStatus)
  | response (r : BuildResponse)
  deriving DecidableEq, Repr

/-- The world's answers during one iteration of the poll loop. -/
structure PollIn where
  /-- Whether `ctx.Done()` is closed at the `select` at the top of the iteration. -/
  cancelled : Bool
  /-- The result of the network call (consulted only if the call is made). -/
  reply : Reply
  deriving DecidableEq, Repr

/-- How one iteration of the poll loop ends. -/
inductive StepEnd where
  /-- The loop goes round again, with this value of `hash`. -/
  | again (hash : String)
  /-- `res` has been set: the loop ends. -/
  | result (r : BuildResponse)
  /-- An error has been sent and `asu1` has returned. -/
  | halted
  deriving DecidableEq, Repr

/-- Lines 208-213: the network call of an iteration, by the value of `hash`. -/
def callActs (hash : String) : List Act :=
  if hash = "" then [.send (.str "submitting request"), .submit] else [.status hash]

/-- One iteration of `for res == nil { ... }` (lines 198-238), started with the
given value of the variable `hash`. -/
def pollStep (hash : String) (i : PollIn) : List Act × StepEnd :=
  if i.cancelled then
    ([.send (.error ctxErr)], .halted)
  else
    let call : List Act := callActs hash
    match i.reply with
    | .fail err => (call ++ [.send (.error ("asu request: " ++ err))], .halted)
    | .status obj =>
      let hash1 := if obj.RequestHash ≠ "" then obj.RequestHash else hash
      match obj.Value with
      | .str v => (call ++ [.send (.str v), .sleep], .again hash1)
      | .error v => (call ++ [.send (.error ("build failed: " ++ v))], .halted)
    | .response r => (call, .result r)

/-- How the poll loop ends. -/
inductive PollEnd where
  | result (r : BuildResponse)
  | halted
  | starved
  deriving DecidableEq, Repr

/-- The loop `for res == nil` (lines 198-238): iterations are run for as long as
the world's answers last. -/
def pollLoop (hash : String) : List PollIn → List Act × PollEnd
  | [] => ([], .starved)
  | i :: rest =>
    match pollStep hash i with
    | (t, .again h) => (t ++ (pollLoop h rest).1, (pollLoop h rest).2)
    | (t, .result r) => (t, .result r)
    | (t, .halted) => (t, .halted)

/-! ## The working directory -/

/-- File contents, byte by byte. -/
abbrev Bytes := List Nat

/-- The working directory (the process has changed into `dir`): the content of
every file that exists, by name. Names are compared as written; modification
times are not recorded, so `os.Chtimes` has no effect here. -/
abbrev FS := String → Option Bytes

/-- The file `name` now has content `data`. -/
def FS.write (fs : FS) (name : String) (data : Bytes) : FS :=
  fun n => if n = name then some data else fs n

/-- The effect of `os.Remove(name)`; no effect when there is no such file. -/
def FS.remove (fs : FS) (name : String) : FS :=
  fun n => if n = name then none else fs n

/-- The effect of a successful `os.Rename(old, new)`. -/
def FS.rename (fs : FS) (old new : String) : FS :=
  fun n => if n = new then fs old else if n = old then none else fs n

/-! ## Library functions used by `asu1` -/

/-- Library functions whose results `asu1` only passes on.
`sha256hex b` is `hex.EncodeToString` of the SHA-256 digest of `b`;
`fmtMiB n` is the `%.1f` rendering of `float64(n)/1048576`;
`fmtPct n total` is the `%.0f` rendering of `float64(n)/float64(total)*100`. -/
structure Lib where
  sha256hex : Bytes → String
  fmtMiB : Int → String
  fmtPct : Int → Int → String

/-- The variable `server` (line 22). -/
def server : String := "https://sysupgrade.openwrt.org"

/-! ## Saving the result (lines 240-250) -/

/-- How a straight-line part of `asu1` ends. -/
inductive PartEnd where
  /-- Control goes on to the next statement. -/
  | next
  /-- An error has been sent and `asu1` has returned. -/
  | halted
  /-- The world's answers have run out. -/
  | starved
  deriving DecidableEq, Repr

/-- Lines 240-250: refuse to overwrite `<ImagePrefix>.json`, else write the raw
payload to it. `writeErr` is the error result of `os.WriteFile`, if any. -/
def saveResult (res : BuildResponse) (writeErr : Option String) (fs : FS) :
    List Act × FS × PartEnd :=
  if (fs (res.ImagePrefix ++ ".json")).isSome then
    ([.send (.error "save result: output file already exists")], fs, .halted)
  else
    match writeErr with
    | some err => ([.send (.error ("save result: " ++ err))], fs, .halted)
    | none => ([], fs.write (res.ImagePrefix ++ ".json") res.Orig, .next)

/-! ## The progress callback and `countReader` (lines 282-292, 459-471) -/

/-- The closure `F` of lines 284-290 for image number `i` (counted from 0) of
`total`, called with the byte count `n`; `contentLength` is `resp.ContentLength`. -/
def progressF (L : Lib) (i total : Nat) (name : String) (contentLength : Int) (n : Nat) :
    Event :=
  if contentLength ≠ 0 then
    .str ("downloading [" ++ toString (i + 1) ++ "/" ++ toString total ++ "] " ++ name
      ++ " (" ++ L.fmtMiB n ++ "/" ++ L.fmtMiB contentLength ++ " MiB) "
      ++ L.fmtPct n contentLength ++ "%")
  else
    .str ("downloading " ++ toString (i + 1) ++ "/" ++ toString total ++ " " ++ name
      ++ " (" ++ L.fmtMiB n ++ "/... MiB)")

/-- The error result of a `Read`: `nil`, `io.EOF`, or another error. -/
inductive ReadErr where
  | none
  | eof
  | fail (err : String)
  deriving DecidableEq, Repr

/-- The world's answers during one iteration of the copy loop. -/
structure ReadIn where
  /-- The bytes `resp.Body.Read` has put into the buffer. -/
  data : Bytes
  /-- The error result of the same call. -/
  err : ReadErr
  /-- The error result of writing these bytes to the temporary file (consulted
  only if there are any). -/
  writeErr : Option String
  deriving DecidableEq, Repr

/-- The struct `countReader` (lines 459-463); the reader `R` is the world, the
callback `F` is passed to `Read`. -/
structure countReader where
  N : Nat
  deriving DecidableEq, Repr

/-- The method `countReader.Read` (lines 465-471) on the answer `r` of the
underlying reader: the bytes and error are handed on, `N` grows by the number of
bytes, and the callback, when there is one, is called with the new `N`. -/
def countReader.Read (c : countReader) (F : Option (Nat → Event)) (r : ReadIn) :
    countReader × List Act × Bytes × ReadErr :=
  let c1 : countReader := { N := c.N + r.data.length }
  match F with
  | some f => (c1, [.send (f c1.N)], r.data, r.err)
  | none => (c1, [], r.data, r.err)

/-- How the copy ends. -/
inductive CopyEnd where
  /-- End of stream: `io.CopyBuffer` returns a nil error. -/
  | done
  /-- `io.CopyBuffer` returns this error. -/
  | failed (err : String)
  | starved
  deriving DecidableEq, Repr

/-- The result of the copy: the actions, the `countReader` afterwards, the bytes
that file and hash have received, and how the copy ends. -/
structure CopyOut where
  acts : List Act
  c : countReader
  written : Bytes
  fin : CopyEnd

/-- The call `io.CopyBuffer(io.MultiWriter(f, h), c, buf)` (line 295): read
through the `countReader`, write what was read to the file and the hash, stop at
the first error. `written` is what file and hash have received so far; the bytes
of a write that fails are not counted. -/
def copyLoop (F : Option (Nat → Event)) (c : countReader) (written : Bytes) :
    List ReadIn → CopyOut
  | [] => ⟨[], c, written, .starved⟩
  | r :: rest =>
    match c.Read F r with
    | (c1, acts, data, er) =>
      match (if 0 < data.length then r.writeErr else none) with
      | some err => ⟨acts, c1, written, .failed err⟩
      | none =>
        match er with
        | .eof => ⟨acts, c1, written ++ data, .done⟩
        | .fail err => ⟨acts, c1, written ++ data, .failed err⟩
        | .none =>
          let out := copyLoop F c1 (written ++ data) rest
          ⟨acts ++ out.acts, out.c, out.written, out.fin⟩

/-! ## Downloading one image (the body of the loop of lines 252-331) -/

/-- The world's answers during the download of one image. -/
structure DlIn where
  /-- Whether `ctx.Done()` is closed at the `select` at the top of the iteration. -/
  cancelled : Bool
  /-- The error result of `http.NewRequestWithContext`. -/
  reqErr : Option String
  /-- The error result of `http.DefaultClient.Do`. -/
  doErr : Option String
  /-- The field `resp.ContentLength`. -/
  contentLength : Int
  /-- The error result of `os.CreateTemp`. -/
  tmpErr : Option String
  /-- The name of the file `os.CreateTemp(".", ".auc-*")` has created is
  `.auc-` followed by this text. -/
  tmpRand : String
  /-- The reads of the response body. -/
  reads : List ReadIn
  /-- The error result of `f.Sync()`. -/
  syncErr : Option String
  /-- The error result of `f.Close()`. -/
  closeErr : Option String
  /-- The error result of `os.Rename`. -/
  renameErr : Option String
  deriving DecidableEq, Repr

/-- The name of the temporary file. -/
def DlIn.tmpName (d : DlIn) : String := ".auc-" ++ d.tmpRand

/-- The value `fmt.Errorf("download %s: %w", x.Name, err)`. -/
def dlError (x : Image) (err : String) : Event :=
  .error ("download " ++ x.Name ++ ": " ++ err)

/-- The result of downloading one image: the actions, the directory afterwards,
the names whose removal has been deferred to the return of `asu1`, and how the
iteration ends. -/
structure DlOut where
  acts : List Act
  fs : FS
  deferred : List String
  fin : PartEnd

/-- One iteration of the loop of lines 252-331, for image number `i` (counted
from 0) `x` of the result `res`. `os.CreateTemp` only ever creates a file that
did not exist: an answer naming an existing file is a failure of the call. -/
def downloadStep (L : Lib) (res : BuildResponse) (i : Nat) (x : Image) (d : DlIn) (fs : FS) :
    DlOut :=
  if d.cancelled then
    ⟨[.send (.error ctxErr)], fs, [], .halted⟩
  else
    let a0 : List Act :=
      [.send (.str ("downloading [" ++ toString (i + 1) ++ "/" ++ toString res.Images.length
        ++ "] " ++ x.Name))]
    match d.reqErr with
    | some err => ⟨a0 ++ [.send (dlError x err)], fs, [], .halted⟩
    | none =>
    let a1 := a0 ++ [.get (server ++ "/store/" ++ res.BinDir ++ "/" ++ x.Name)]
    match d.doErr with
    | some err => ⟨a1 ++ [.send (dlError x err)], fs, [], .halted⟩
    | none =>
    match d.tmpErr with
    | some err => ⟨a1 ++ [.send (dlError x err)], fs, [], .halted⟩
    | none =>
    if (fs d.tmpName).isSome then
      ⟨a1 ++ [.send (dlError x "file exists")], fs, [], .halted⟩
    else
    let F := progressF L i res.Images.length x.Name d.contentLength
    let a2 := a1 ++ [.send (F 0)]
    let cp := copyLoop (some F) { N := 0 } [] d.reads
    let a3 := a2 ++ cp.acts
    let fs1 := fs.write d.tmpName cp.written
    match cp.fin with
    | .starved => ⟨a3, fs1, [d.tmpName], .starved⟩
    | .failed err => ⟨a3 ++ [.send (dlError x err)], fs1, [d.tmpName], .halted⟩
    | .done =>
    if L.sha256hex cp.written ≠ x.SHA256 then
      ⟨a3 ++ [.send (dlError x ("expected sha256:" ++ x.SHA256 ++ ", got sha256:"
        ++ L.sha256hex cp.written))], fs1, [d.tmpName], .halted⟩
    else
    match d.syncErr with
    | some err => ⟨a3 ++ [.send (dlError x err)], fs1, [d.tmpName], .halted⟩
    | none =>
    match d.closeErr with
    | some err => ⟨a3 ++ [.send (dlError x err)], fs1, [d.tmpName], .halted⟩
    | none =>
    if (fs1 x.Name).isSome then
      ⟨a3 ++ [.send (dlError x "output file already exists")], fs1, [d.tmpName], .halted⟩
    else
    match d.renameErr with
    | some err => ⟨a3 ++ [.send (dlError x err)], fs1, [d.tmpName], .halted⟩
    | none => ⟨a3, fs1.rename d.tmpName x.Name, [d.tmpName], .next⟩

/-- The loop `for i, x := range res.Images` (lines 252-331) from image number
`i` on, `xs` being the images still to come. -/
def downloadLoop (L : Lib) (res : BuildResponse) :
    Nat → List Image → List DlIn → FS → DlOut
  | _, [], _, fs => ⟨[], fs, [], .next⟩
  | _, _ :: _, [], fs => ⟨[], fs, [], .starved⟩
  | i, x :: xs, d :: ds, fs =>
    let o := downloadStep L res i x d fs
    match o.fin with
    | .next =>
      let o1 := downloadLoop L res (i + 1) xs ds o.fs
      ⟨o.acts ++ o1.acts, o1.fs, o.deferred ++ o1.deferred, o1.fin⟩
    | _ => o

/-! ## The worker -/

/-- Everything the world answers to one worker. -/
structure World where
  polls : List PollIn
  /-- The error result of `os.WriteFile` (line 244). -/
  saveErr : Option String
  /-- One entry per image, in the order of `res.Images`. -/
  downloads : List DlIn
  deriving DecidableEq, Repr

/-- One run of a worker. -/
structure Run where
  /-- The actions, in program order. -/
  acts : List Act
  /-- The directory when the run ends. -/
  fs : FS
  /-- Whether `asu1` has returned, and with it `defer close(ch)` has run. -/
  closed : Bool

/-- The deferred calls `os.Remove(f.Name())`, run last-in first-out when `asu1`
returns. -/
def runDeferred (fs : FS) (deferred : List String) : FS :=
  deferred.reverse.foldl FS.remove fs

/-- The function `asu1` (lines 193-334). -/
def asu1 (L : Lib) (w : World) (fs : FS) : Run :=
  match pollLoop "" w.polls with
  | (a, .starved) => ⟨a, fs, false⟩
  | (a, .halted) => ⟨a, fs, true⟩
  | (a, .result res) =>
    match saveResult res w.saveErr fs with
    | (b, fs1, .starved) => ⟨a ++ b, fs1, false⟩
    | (b, fs1, .halted) => ⟨a ++ b, fs1, true⟩
    | (b, fs1, .next) =>
      let o := downloadLoop L res 0 res.Images w.downloads fs1
      match o.fin with
      | .starved => ⟨a ++ b ++ o.acts, o.fs, false⟩
      | .halted => ⟨a ++ b ++ o.acts, runDeferred o.fs o.deferred, true⟩
      | .next =>
        ⟨a ++ b ++ o.acts ++ [.send (.str ("done: " ++ res.ImagePrefix))],
          runDeferred o.fs o.deferred, true⟩

/-! ## The fan-in loop of `main` (lines 134-185) -/

/-- A channel made by `asu` (line 188), by an identifier. -/
abbrev Chan := Nat

/-- What is outside the control of one iteration of the loop of lines 144-180. -/
structure Pick where
  /-- The index `reflect.Select(sch)` returns. -/
  chosen : Nat
  /-- Whether an interrupt signal has been delivered by the time this iteration
  looks at `ctx.Done()` (line 154). -/
  interrupted : Bool
  deriving DecidableEq, Repr

/-- A record of one iteration of the loop (history only, read by no code):
the channel selected, the task index `sci[i]` it stood for, and what happened. -/
inductive Obs where
  /-- The channel was closed and has been removed (lines 146-150). -/
  | closed (c : Chan) (task : Nat)
  /-- An event was received and dropped because `ctx.Done()` was closed (line 155). -/
  | skipped (c : Chan) (task : Nat) (e : Event)
  /-- An event was received and stored (lines 159-179). -/
  | shown (c : Chan) (task : Nat) (e : Event)
  deriving DecidableEq, Repr

/-- The state of the loop of lines 144-180. -/
structure Orch where
  sci : List Nat
  sch : List Chan
  dst : List String
  errored : Bool
  /-- Whether `ctx.Done()` is closed, by `cancel()` or by an interrupt signal. -/
  done : Bool
  /-- What each channel still delivers before it is closed. -/
  chans : Chan → List Event
  /-- The lines written to standard error (line 176). -/
  stderr : List String
  /-- The history of the iterations so far. -/
  log : List Obs

/-- The text stored for an event (lines 160-168). -/
def statusText : Event → String
  | .str status => status
  | .error status => "error: " ++ status

/-- Lines 134-143: the state before the first iteration, for the channels `dch`
of the workers started in lines 121-132. -/
def initOrch (dch : List Chan) (chans : Chan → List Event) : Orch :=
  { sci := List.range dch.length
    sch := dch
    dst := List.replicate dch.length ""
    errored := false
    done := false
    chans := chans
    stderr := []
    log := [] }

/-- One iteration of the loop of lines 144-180. The result is `none` when
`reflect.Select` cannot have returned the index `chosen`, or when an index
expression of the body is out of range (a run-time panic). -/
def selectStep (s : Orch) (pk : Pick) : Option Orch :=
  match s.sch[pk.chosen]? with
  | none => none
  | some c =>
    match s.sci[pk.chosen]? with
    | none => none
    | some i =>
      match s.chans c with
      | [] =>
        some { s with
          sci := s.sci.eraseIdx pk.chosen
          sch := s.sch.eraseIdx pk.chosen
          log := s.log ++ [.closed c i] }
      | e :: rest =>
        let chans1 : Chan → List Event := fun c1 => if c1 = c then rest else s.chans c1
        if s.done || pk.interrupted then
          some { s with chans := chans1, done := true, log := s.log ++ [.skipped c i e] }
        else if i < s.dst.length then
          match e with
          | .str status =>
            some { s with
              chans := chans1
              dst := s.dst.set i status
              log := s.log ++ [.shown c i e] }
          | .error status =>
            some { s with
              chans := chans1
              dst := s.dst.set i ("error: " ++ status)
              stderr := s.stderr ++ [status]
              done := true
              errored := true
              log := s.log ++ [.shown c i e] }
        else none

/-- The loop body run once for every pick, in order. -/
def loopRun (s : Orch) : List Pick → Option Orch
  | [] => some s
  | pk :: rest => (selectStep s pk).bind (fun s1 => loopRun s1 rest)

/-- Lines 182-185: the exit code once the loop has ended. -/
def exitCode (s : Orch) : Nat := if s.errored then 1 else 0

/-- The exit code of `main` when the loop of lines 144-180 runs its body exactly
once for every pick and then finds `len(sch) == 0`. -/
def mainExit (dch : List Chan) (chans : Chan → List Event) (picks : List Pick) : Option Nat :=
  match loopRun (initOrch dch chans) picks with
  | some s => if s.sch.length = 0 then some (exitCode s) else none
  | none => none

end Asu

/-! # Notions used in the statements -/

namespace Asu

/-- An iteration of the poll loop after which the loop goes round again: the
context is not cancelled and the reply is a status with code 200 or 202. -/
def PollIn.inProgress (i : PollIn) : Bool :=
  !i.cancelled &&
    match i.reply with
    | .status s => s.Status == 200 || s.Status == 202
    | _ => false

/-- The most recently received non-empty request hash after the given replies,
`hash` if there is none (stated from the description of the handle, not from the
code). -/
def latestHandle (hash : String) : List PollIn → String
  | [] => hash
  | i :: rest =>
    match i.reply with
    | .status s => latestHandle (if s.RequestHash = "" then hash else s.RequestHash) rest
    | _ => latestHandle hash rest

/-- No error is sent anywhere in the trace. -/
def Quiet (a : List Act) : Prop := ∀ e ∈ events a, e.isError = false

/-- The trace sends exactly one error, as its last event. -/
def Halts (a : List Act) : Prop :=
  ∃ pre msg, events a = pre ++ [.error msg] ∧ ∀ e ∈ pre, e.isError = false

/-- The shape of the trace of a part of `asu1`, by the way the part ends. -/
def shapeOf (a : List Act) : PartEnd → Prop
  | .halted => Halts a
  | _ => Quiet a

/-- The handle known before each of the given iterations, in order: `hash`
before the first, and before every later one the most recently received
non-empty request hash (stated from the description of the handle). -/
def handlesBefore (hash : String) : List PollIn → List String
  | [] => []
  | i :: rest => hash :: handlesBefore (latestHandle hash [i]) rest

/-- The network call that goes with a handle: a submission while there is none,
the status poll with the handle once there is one. -/
def callFor (hash : String) : Act := if hash = "" then .submit else .status hash

/-- The network calls of a trace, in order. -/
def netCalls (a : List Act) : List Act := a.filter Act.isNetwork

/-- The text `sub` occurs in the text `s`. -/
def Contains (s sub : String) : Prop := sub.data <:+: s.data

/-- A finite byte stream that is read to its end with no transport error, and
whose bytes are all written to the temporary file with no error. -/
def cleanStream : List ReadIn → Bool
  | [] => false
  | r :: rest =>
    (r.data.length == 0 || r.writeErr.isNone) &&
      match r.err with
      | .none => cleanStream rest
      | .eof => true
      | .fail _ => false

/-- The bytes a stream delivers up to the read that reports its end. -/
def streamedBytes : List ReadIn → Bytes
  | [] => []
  | r :: rest =>
    match r.err with
    | .none => r.data ++ streamedBytes rest
    | _ => r.data

/-- The reads a copy makes: up to the first one that reports an error or the end
of the stream, or whose bytes cannot be written. -/
def readsMade : List ReadIn → List ReadIn
  | [] => []
  | r :: rest =>
    if 0 < r.data.length ∧ r.writeErr.isSome then [r]
    else
      match r.err with
      | .none => r :: readsMade rest
      | _ => [r]

/-- The number of bytes read in all after each of the given reads, counted from `start`. -/
def runningTotals (start : Nat) : List ReadIn → List Nat
  | [] => []
  | r :: rest => (start + r.data.length) :: runningTotals (start + r.data.length) rest

/-- The task index recorded in a history entry. -/
def Obs.task : Obs → Nat
  | .closed _ k => k
  | .skipped _ k _ => k
  | .shown _ k _ => k

/-- The channel recorded in a history entry. -/
def Obs.chan : Obs → Chan
  | .closed c _ => c
  | .skipped c _ _ => c
  | .shown c _ _ => c

/-- The event recorded in a history entry, if the iteration received one. -/
def Obs.event : Obs → Option Event
  | .closed _ _ => none
  | .skipped _ _ e => some e
  | .shown _ _ e => some e

/-- The events received on channel `c` so far, in order. -/
def receivedOn (c : Chan) (log : List Obs) : List Event :=
  (log.filter (fun o => o.chan == c)).filterMap Obs.event

/-- The events put down to task `k` so far, in order. -/
def receivedBy (k : Nat) (log : List Obs) : List Event :=
  (log.filter (fun o => o.task == k)).filterMap Obs.event

/-- The task indices whose channel has been removed, in order of removal. -/
def closedTasks : List Obs → List Nat
  | [] => []
  | .closed _ k :: rest => k :: closedTasks rest
  | _ :: rest => closedTasks rest

/-- The status text of the last event of task `k` that was stored (not dropped),
the empty text if there is none. -/
def shownText (k : Nat) (log : List Obs) : String :=
  log.foldl
    (fun acc o =>
      match o with
      | .shown _ k1 e => if k1 = k then statusText e else acc
      | _ => acc)
    ""

/-- The terminal event of a stream: the last event sent before the channel is closed. -/
def terminal (stream : List Event) : Option Event := stream.getLast?

/-- A stream in which no event before the last is an error. -/
def WellFormed (stream : List Event) : Prop := ∀ e ∈ stream.dropLast, e.isError = false

/-- Some stream event is an error. -/
def hasError (stream : List Event) : Prop := ∃ e ∈ stream, e.isError = true

/-- What holds of the state of the loop of `main` between iterations as long as
no interrupt signal has been delivered. -/
structure QuietInv (dch : List Chan) (chans0 : Chan → List Event) (s : Orch) : Prop where
  done_errored : s.done = true → s.errored = true
  error_ahead : s.errored = true ∨
    ∀ c ∈ dch, hasError (chans0 c) → c ∈ s.sch ∧ hasError (s.chans c)

/-- What holds of the state of the loop of `main` between iterations, for the
channels `dch` and the streams `chans0` the channels deliver in all. -/
structure LoopInv (dch : List Chan) (chans0 : Chan → List Event) (s : Orch) : Prop where
  chan_of : s.sci.map (fun k => dch[k]?) = s.sch.map some
  sorted : s.sci.Pairwise (· < ·)
  dst_len : s.dst.length = dch.length
  closed_perm : (closedTasks s.log ++ s.sci).Perm (List.range dch.length)
  log_chan : ∀ o ∈ s.log, dch[o.task]? = some o.chan
  pending : ∀ c, ∀ e ∈ s.chans c, e ∈ chans0 c
  errored_iff : s.errored = true ↔ ∃ c k msg, Obs.shown c k (.error msg) ∈ s.log
  shown_from : ∀ c k e, Obs.shown c k e ∈ s.log → c ∈ dch ∧ e ∈ chans0 c
  dst_eq : ∀ k < dch.length, s.dst[k]? = some (shownText k s.log)
  drained : ∀ c k, Obs.closed c k ∈ s.log → s.chans c = []

/-! ## Sample inputs -/

/-- Stand-ins for the library functions, for evaluating on sample inputs: the
sum of the bytes for the digest, the plain number for the renderings. -/
def sampleLib : Lib :=
  { sha256hex := fun b => toString b.sum
    fmtMiB := fun n => toString n
    fmtPct := fun n t => toString (n * 100 / t) }

/-- A directory with no file. -/
def emptyFS : FS := fun _ => none

/-- A directory in which `image.bin` exists. -/
def occupiedFS : FS := emptyFS.write "image.bin" [9, 9]

/-- A status reply of a build in progress, with a request hash. -/
def statusQueued : BuildStatus := ⟨"queued", "", "abc", 202, ""⟩

/-- A later status reply of the same build, with no request hash. -/
def statusBuilding : BuildStatus := ⟨"building", "", "", 202, ""⟩

/-- A status reply of a failed build. -/
def status500 : BuildStatus := ⟨"unsupported target", "", "", 500, ""⟩

/-- An image whose expected digest is that of the bytes 1, 2, 3 under `sampleLib`. -/
def imageBin : Image := ⟨"squashfs", "image.bin", "6", "", "sysupgrade"⟩

/-- A build result with the one image `image.bin`. -/
def sampleResult : BuildResponse := ⟨"bin", true, "openwrt-x", [imageBin], [123, 125]⟩

/-- A download in which everything succeeds: the bytes 1, 2, 3 arrive in two reads. -/
def sampleDl : DlIn :=
  { cancelled := false
    reqErr := none
    doErr := none
    contentLength := 3
    tmpErr := none
    tmpRand := "1234"
    reads := [⟨[1, 2], .none, none⟩, ⟨[3], .eof, none⟩]
    syncErr := none
    closeErr := none
    renameErr := none }

/-- The same download, with a failure of `f.Sync()`. -/
def syncFailDl : DlIn := { sampleDl with syncErr := some "input/output error" }

/-- The same download, with a stream whose digest is not the expected one. -/
def corruptDl : DlIn := { sampleDl with reads := [⟨[1, 2], .none, none⟩, ⟨[4], .eof, none⟩] }

/-- A download whose request fails. -/
def refusedDl : DlIn := { sampleDl with doErr := some "connection refused" }

/-- A download that finds the context cancelled. -/
def cancelledDl : DlIn := { sampleDl with cancelled := true }

/-- A worker whose build succeeds and whose image is downloaded. -/
def sampleWorld : World :=
  ⟨[⟨false, .status statusQueued⟩, ⟨false, .response sampleResult⟩], none, [sampleDl]⟩

/-- A worker that finds its context cancelled at the second iteration of the poll loop. -/
def worldCancelled : World := ⟨[⟨false, .status statusQueued⟩, ⟨true, .fail ""⟩], none, []⟩

/-- A worker whose build fails at once. -/
def worldFailed : World := ⟨[⟨false, .status status500⟩], none, []⟩

/-- Two workers that are both cancelled while polling; channels 10 and 11. -/
def streamsInterrupted : Chan → List Event :=
  fun _ => events (asu1 sampleLib worldCancelled emptyFS).acts

/-- An order of arrival for `streamsInterrupted` in which an interrupt signal is
delivered after three events have been stored. -/
def picksInterrupted : List Pick :=
  [⟨0, false⟩, ⟨1, false⟩, ⟨0, false⟩, ⟨1, true⟩, ⟨0, true⟩, ⟨1, true⟩, ⟨0, true⟩, ⟨0, true⟩]

/-- Two workers: the build of the first fails, the second is cancelled while
polling; channels 10 and 11. -/
def streamsSibling : Chan → List Event :=
  fun c =>
    if c = 10 then events (asu1 sampleLib worldFailed emptyFS).acts
    else events (asu1 sampleLib worldCancelled emptyFS).acts

/-- An order of arrival for `streamsSibling`, with no interrupt signal. -/
def picksSibling : List Pick :=
  [⟨0, false⟩, ⟨1, false⟩, ⟨0, false⟩, ⟨1, false⟩, ⟨1, false⟩, ⟨0, false⟩, ⟨0, false⟩]

/-- The state after the first five picks of `picksSibling`: every event has been
received, no channel has been removed yet. -/
def midSibling : Orch :=
  (loopRun (initOrch [10, 11] streamsSibling) (picksSibling.take 5)).getD
    (initOrch [] streamsSibling)

/-- The state in which the loop ends on `streamsSibling` and `picksSibling`. -/
def finalSibling : Orch :=
  (loopRun (initOrch [10, 11] streamsSibling) picksSibling).getD (initOrch [] streamsSibling)

/-- A poll iteration that receives `statusQueued`. -/
def pollQueued : PollIn := ⟨false, .status statusQueued⟩

/-- A poll iteration that receives `statusBuilding`. -/
def pollBuilding : PollIn := ⟨false, .status statusBuilding⟩

/-- A poll iteration that receives `status500`. -/
def pollFailed : PollIn := ⟨false, .status status500⟩

/-- A poll iteration that finds the context cancelled. -/
def pollCancelled : PollIn := ⟨true, .fail ""⟩

/-- A worker whose build succeeds and whose download fails at `f.Sync()`. -/
def worldSyncFail : World :=
  ⟨[⟨false, .status statusQueued⟩, ⟨false, .response sampleResult⟩], none, [syncFailDl]⟩

end Asu

/-! # Lemmas -/

namespace Asu

/-! ## Events of a trace -/

theorem events_append (a b : List Act) : events (a ++ b) = events a ++ events b := by
  induction a with
  | nil => rfl
  | cons x t ih => cases x <;> simp [events, ih]

theorem Quiet.nil : Quiet [] := by
  intro e he
  simp [events] at he

theorem Quiet.append {a b : List Act} (ha : Quiet a) (hb : Quiet b) : Quiet (a ++ b) := by
  intro e he
  rw [events_append, List.mem_append] at he
  rcases he with he | he
  · exact ha e he
  · exact hb e he

theorem Quiet.send_str (s : String) : Quiet [.send (.str s)] := by
  intro e he
  simp [events] at he
  subst he
  rfl

theorem Quiet.halts {a b : List Act} (ha : Quiet a) (hb : Halts b) : Halts (a ++ b) := by
  obtain ⟨pre, msg, hev, hpre⟩ := hb
  refine ⟨events a ++ pre, msg, ?_, ?_⟩
  · rw [events_append, hev, List.append_assoc]
  · intro e he
    rw [List.mem_append] at he
    rcases he with he | he
    · exact ha e he
    · exact hpre e he

theorem Halts.send_error (msg : String) : Halts [.send (.error msg)] :=
  ⟨[], msg, by simp [events], by simp⟩

theorem quiet_submit : Quiet [.send (.str "submitting request"), .submit] := by
  intro e he
  simp [events] at he
  subst he
  rfl

theorem quiet_status (h : String) : Quiet [.status h] := by
  intro e he
  simp [events] at he

theorem quiet_call (hash : String) : Quiet (callActs hash) := by
  unfold callActs
  split
  · exact quiet_submit
  · exact quiet_status _

/-! ## The poll loop -/

theorem pollStep_shape (hash : String) (i : PollIn) :
    match (pollStep hash i).2 with
    | .halted => Halts (pollStep hash i).1
    | _ => Quiet (pollStep hash i).1 := by
  unfold pollStep
  by_cases hc : i.cancelled = true
  · simp only [hc, if_true]
    exact Halts.send_error _
  · simp only [hc]
    cases hr : i.reply with
    | fail err =>
      simp only [Bool.false_eq_true, if_false]
      exact (quiet_call hash).halts (Halts.send_error _)
    | status obj =>
      simp only [Bool.false_eq_true, if_false]
      cases hv : obj.Value with
      | str v =>
        simp only
        refine (quiet_call hash).append ?_
        intro e he
        simp [events] at he
        subst he
        rfl
      | error v =>
        simp only
        exact (quiet_call hash).halts (Halts.send_error _)
    | response r =>
      simp only [Bool.false_eq_true, if_false]
      exact quiet_call hash

theorem pollLoop_shape (script : List PollIn) : ∀ hash : String,
    match (pollLoop hash script).2 with
    | .halted => Halts (pollLoop hash script).1
    | _ => Quiet (pollLoop hash script).1 := by
  induction script with
  | nil => intro hash; simp [pollLoop, Quiet.nil]
  | cons i rest ih =>
    intro hash
    have hs := pollStep_shape hash i
    unfold pollLoop
    rcases hp : pollStep hash i with ⟨t, e⟩
    rw [hp] at hs
    cases e with
    | again h =>
      simp only at hs ⊢
      have ih1 := ih h
      cases hq : (pollLoop h rest).2 with
      | halted =>
        rw [hq] at ih1
        exact hs.halts ih1
      | result r =>
        rw [hq] at ih1
        exact hs.append ih1
      | starved =>
        rw [hq] at ih1
        exact hs.append ih1
    | result r => simpa using hs
    | halted => simpa using hs

/-! ## Saving the result, copying, downloading -/

theorem saveResult_shape (res : BuildResponse) (writeErr : Option String) (fs : FS) :
    shapeOf (saveResult res writeErr fs).1 (saveResult res writeErr fs).2.2 := by
  unfold saveResult
  split
  · exact Halts.send_error _
  · cases writeErr with
    | none => exact Quiet.nil
    | some err => exact Halts.send_error _

theorem saveResult_not_starved (res : BuildResponse) (writeErr : Option String) (fs : FS) :
    (saveResult res writeErr fs).2.2 ≠ .starved := by
  unfold saveResult
  split
  · simp
  · cases writeErr <;> simp

theorem copyLoop_quiet (F : Nat → Event) (hF : ∀ n, (F n).isError = false)
    (reads : List ReadIn) : ∀ (c : countReader) (w : Bytes),
    Quiet (copyLoop (some F) c w reads).acts := by
  induction reads with
  | nil => intro c w; exact Quiet.nil
  | cons r rest ih =>
    intro c w
    have hq : Quiet [Act.send (F (c.N + r.data.length))] := by
      intro e he
      simp [events] at he
      subst he
      exact hF _
    simp only [copyLoop, countReader.Read]
    split
    · exact hq
    · split
      · exact hq
      · exact hq
      · exact hq.append (ih _ _)

theorem progressF_not_error (L : Lib) (i total : Nat) (name : String) (cl : Int) (n : Nat) :
    (progressF L i total name cl n).isError = false := by
  unfold progressF
  split <;> rfl

theorem dlError_halts (x : Image) (err : String) : Halts [.send (dlError x err)] :=
  Halts.send_error _

theorem downloadStep_shape (L : Lib) (res : BuildResponse) (i : Nat) (x : Image) (d : DlIn)
    (fs : FS) :
    shapeOf (downloadStep L res i x d fs).acts (downloadStep L res i x d fs).fin := by
  have hF := progressF_not_error L i res.Images.length x.Name d.contentLength
  have hcp := copyLoop_quiet _ hF d.reads { N := 0 } []
  have h0 : Quiet [Act.send (.str ("downloading [" ++ toString (i + 1) ++ "/"
      ++ toString res.Images.length ++ "] " ++ x.Name))] := Quiet.send_str _
  have hg : Quiet [Act.get (server ++ "/store/" ++ res.BinDir ++ "/" ++ x.Name)] := by
    intro e he
    simp [events] at he
  have hp0 : Quiet [Act.send (progressF L i res.Images.length x.Name d.contentLength 0)] := by
    intro e he
    simp [events] at he
    subst he
    exact hF 0
  have h1 := h0.append hg
  have h3 := (h1.append hp0).append hcp
  unfold downloadStep
  split
  · exact Halts.send_error _
  · split
    · exact h0.halts (dlError_halts _ _)
    · split
      · exact h1.halts (dlError_halts _ _)
      · split
        · exact h1.halts (dlError_halts _ _)
        · split
          · exact h1.halts (dlError_halts _ _)
          · simp only
            split
            · exact h3
            · exact h3.halts (dlError_halts _ _)
            · split
              · exact h3.halts (dlError_halts _ _)
              · split
                · exact h3.halts (dlError_halts _ _)
                · split
                  · exact h3.halts (dlError_halts _ _)
                  · split
                    · exact h3.halts (dlError_halts _ _)
                    · split
                      · exact h3.halts (dlError_halts _ _)
                      · exact h3

theorem downloadLoop_shape (L : Lib) (res : BuildResponse) (xs : List Image) :
    ∀ (i : Nat) (ds : List DlIn) (fs : FS),
    shapeOf (downloadLoop L res i xs ds fs).acts (downloadLoop L res i xs ds fs).fin := by
  induction xs with
  | nil => intro i ds fs; simp [downloadLoop, shapeOf, Quiet.nil]
  | cons x xs ih =>
    intro i ds fs
    cases ds with
    | nil => simp [downloadLoop, shapeOf, Quiet.nil]
    | cons d ds =>
      have hs := downloadStep_shape L res i x d fs
      simp only [downloadLoop]
      cases hfin : (downloadStep L res i x d fs).fin with
      | next =>
        rw [hfin] at hs
        simp only
        have ih1 := ih (i + 1) ds (downloadStep L res i x d fs).fs
        cases hq : (downloadLoop L res (i + 1) xs ds (downloadStep L res i x d fs).fs).fin with
        | next => rw [hq] at ih1; exact Quiet.append hs ih1
        | starved => rw [hq] at ih1; exact Quiet.append hs ih1
        | halted => rw [hq] at ih1; exact Quiet.halts hs ih1
      | halted => exact hs
      | starved => exact hs

/-! ## The worker: one terminal event -/

theorem halts_last {a : List Act} (h : Halts a) :
    ∃ pre last, events a = pre ++ [last] ∧ (∀ e ∈ pre, e.isError = false) ∧
      last.isError = true := by
  obtain ⟨pre, msg, hev, hpre⟩ := h
  exact ⟨pre, .error msg, hev, hpre, rfl⟩

/-- C2. Whenever a run of `asu1` returns (and so closes its channel), the events it
has sent are `pre ++ [last]` where no event of `pre` is an error and `last` is
either an error or, when the run sent no error at all, the string `"done: "`
followed by the image prefix of the result the poll loop obtained. -/
theorem asu1_one_terminal_event (L : Lib) (w : World) (fs : FS)
    (hclosed : (asu1 L w fs).closed = true) :
    ∃ pre last, events (asu1 L w fs).acts = pre ++ [last] ∧
      (∀ e ∈ pre, e.isError = false) ∧
      (last.isError = true ∨
        ∃ res, (pollLoop "" w.polls).2 = .result res ∧
          last = .str ("done: " ++ res.ImagePrefix)) := by
  have hp := pollLoop_shape w.polls ""
  unfold asu1 at hclosed ⊢
  rcases hpl : pollLoop "" w.polls with ⟨a, e⟩
  rw [hpl] at hp hclosed
  cases e with
  | starved => simp at hclosed
  | halted =>
    simp only at hp ⊢
    obtain ⟨pre, last, h1, h2, h3⟩ := halts_last hp
    exact ⟨pre, last, h1, h2, Or.inl h3⟩
  | result res =>
    simp only at hp hclosed ⊢
    have hs := saveResult_shape res w.saveErr fs
    have hns := saveResult_not_starved res w.saveErr fs
    rcases hsv : saveResult res w.saveErr fs with ⟨b, fs1, e1⟩
    rw [hsv] at hs hns hclosed
    cases e1 with
    | starved => simp at hns
    | halted =>
      simp only at hs ⊢
      obtain ⟨pre, last, h1, h2, h3⟩ := halts_last (hp.halts hs)
      exact ⟨pre, last, h1, h2, Or.inl h3⟩
    | next =>
      simp only at hs hclosed ⊢
      have hd := downloadLoop_shape L res res.Images 0 w.downloads fs1
      cases hfin : (downloadLoop L res 0 res.Images w.downloads fs1).fin with
      | starved => rw [hfin] at hclosed; simp at hclosed
      | halted =>
        rw [hfin] at hd
        simp only
        obtain ⟨pre, last, h1, h2, h3⟩ := halts_last ((hp.append hs).halts hd)
        exact ⟨pre, last, h1, h2, Or.inl h3⟩
      | next =>
        rw [hfin] at hd
        simp only
        refine ⟨events (a ++ b ++ (downloadLoop L res 0 res.Images w.downloads fs1).acts),
          .str ("done: " ++ res.ImagePrefix), ?_, ?_, Or.inr ⟨res, rfl, rfl⟩⟩
        · rw [events_append]
          rfl
        · exact (hp.append hs).append hd

/-! ## The poll loop: handle, status decoding, cancellation -/

theorem Value_of_inProgress (s : BuildStatus) (h : s.Status = 200 ∨ s.Status = 202) :
    s.Value = .str s.Detail := by
  unfold BuildStatus.Value
  rw [if_neg]
  rcases h with h | h <;> simp [h]

theorem Value_of_failed (s : BuildStatus) (h : ¬ (s.Status = 200 ∨ s.Status = 202)) :
    s.Value = .error (s.Detail ++ " (status " ++ toString s.Status ++ ")") := by
  unfold BuildStatus.Value
  rw [if_pos]
  exact not_or.mp h

theorem pollStep_inProgress (hash : String) (i : PollIn) (h : i.inProgress = true) :
    ∃ s, i.reply = .status s ∧
      pollStep hash i =
        (callActs hash ++ [.send (.str s.Detail), .sleep], .again (latestHandle hash [i])) := by
  unfold PollIn.inProgress at h
  cases hr : i.reply with
  | fail err => simp [hr] at h
  | response r => simp [hr] at h
  | status s =>
    refine ⟨s, rfl, ?_⟩
    simp only [hr, Bool.and_eq_true, Bool.not_eq_true', Bool.or_eq_true, beq_iff_eq] at h
    unfold pollStep
    simp only [h.1, hr, Bool.false_eq_true, if_false, Value_of_inProgress s h.2, latestHandle]
    by_cases he : s.RequestHash = "" <;> simp [he]

theorem latestHandle_append (pre rest : List PollIn) : ∀ hash : String,
    latestHandle hash (pre ++ rest) = latestHandle (latestHandle hash pre) rest := by
  induction pre with
  | nil => intro hash; rfl
  | cons i pre ih =>
    intro hash
    simp only [List.cons_append, latestHandle]
    split <;> exact ih _

theorem latestHandle_ne (script : List PollIn) : ∀ hash : String, hash ≠ "" →
    latestHandle hash script ≠ "" := by
  induction script with
  | nil => intro hash h; exact h
  | cons i rest ih =>
    intro hash h
    simp only [latestHandle]
    split
    · apply ih
      split
      · exact h
      · assumption
    · exact ih _ h

theorem pollLoop_append (pre rest : List PollIn) (hpre : ∀ j ∈ pre, j.inProgress = true) :
    ∀ hash : String,
    pollLoop hash (pre ++ rest) =
      ((pollLoop hash pre).1 ++ (pollLoop (latestHandle hash pre) rest).1,
        (pollLoop (latestHandle hash pre) rest).2) := by
  induction pre with
  | nil => intro hash; simp [pollLoop, latestHandle]
  | cons i pre ih =>
    intro hash
    obtain ⟨s, hr, hstep⟩ := pollStep_inProgress hash i (hpre i (List.mem_cons_self _ _))
    have ih1 := ih (fun j hj => hpre j (List.mem_cons_of_mem _ hj)) (latestHandle hash [i])
    have hl : latestHandle (latestHandle hash [i]) pre = latestHandle hash (i :: pre) :=
      (latestHandle_append [i] pre hash).symm
    simp only [List.cons_append, pollLoop, hstep, List.append_eq, ih1, hl, List.append_assoc]

theorem pollStep_no_submit (hash : String) (hne : hash ≠ "") (i : PollIn) :
    (∀ a ∈ (pollStep hash i).1, a ≠ Act.submit) ∧
      ∀ h1, (pollStep hash i).2 = .again h1 → h1 ≠ "" := by
  unfold pollStep callActs
  by_cases hc : i.cancelled = true
  · simp [hc]
  · simp only [hc, Bool.false_eq_true, if_false, hne]
    cases hr : i.reply with
    | fail err => simp
    | response r => simp
    | status s =>
      simp only
      cases hv : s.Value with
      | error v => simp
      | str v =>
        simp only [List.singleton_append, List.mem_cons, List.mem_singleton, StepEnd.again.injEq,
          List.not_mem_nil, or_false]
        refine ⟨?_, ?_⟩
        · intro a ha
          rcases ha with ha | ha | ha <;> simp [ha]
        · intro h1 hh
          subst hh
          split
          · assumption
          · exact hne

theorem pollLoop_no_submit (script : List PollIn) : ∀ hash : String, hash ≠ "" →
    ∀ a ∈ (pollLoop hash script).1, a ≠ Act.submit := by
  induction script with
  | nil => intro hash _ a ha; simp [pollLoop] at ha
  | cons i rest ih =>
    intro hash hne a ha
    have hs := pollStep_no_submit hash hne i
    unfold pollLoop at ha
    rcases hp : pollStep hash i with ⟨t, e⟩
    rw [hp] at ha hs
    cases e with
    | again h =>
      simp only [List.mem_append] at ha
      rcases ha with ha | ha
      · exact hs.1 a ha
      · exact ih h (hs.2 h rfl) a ha
    | result r => exact hs.1 a ha
    | halted => exact hs.1 a ha

theorem pollStep_again_inProgress (hash : String) (i : PollIn) (h1 : String)
    (h : (pollStep hash i).2 = .again h1) : i.inProgress = true := by
  unfold pollStep at h
  unfold PollIn.inProgress
  by_cases hc : i.cancelled = true
  · simp [hc] at h
  · simp only [hc, Bool.false_eq_true, if_false] at h
    cases hr : i.reply with
    | fail err => simp [hr] at h
    | response r => simp [hr] at h
    | status s =>
      by_cases hs : s.Status = 200 ∨ s.Status = 202
      · simp only [Bool.not_eq_true] at hc
        simp only [hc, Bool.not_false, Bool.true_and, Bool.or_eq_true, beq_iff_eq]
        exact hs
      · simp [hr, Value_of_failed s hs] at h

theorem pollStep_known (hash : String) (hne : hash ≠ "") (i : PollIn)
    (hc : i.cancelled = false) :
    ∃ tail, (pollStep hash i).1 = .status hash :: tail ∧ ∀ a ∈ tail, a.isNetwork = false := by
  unfold pollStep callActs
  simp only [hc, Bool.false_eq_true, if_false, hne]
  cases hr : i.reply with
  | fail err => exact ⟨_, rfl, by simp [Act.isNetwork]⟩
  | response r => exact ⟨[], rfl, by simp⟩
  | status s =>
    simp only
    cases hv : s.Value with
    | error v => exact ⟨_, rfl, by simp [Act.isNetwork]⟩
    | str v => exact ⟨_, rfl, by simp [Act.isNetwork]⟩

theorem pollStep_failed (hash : String) (i : PollIn) (s : BuildStatus)
    (hc : i.cancelled = false) (hr : i.reply = .status s)
    (hs : ¬ (s.Status = 200 ∨ s.Status = 202)) :
    pollStep hash i =
      (callActs hash ++ [.send (.error ("build failed: " ++
        (s.Detail ++ " (status " ++ toString s.Status ++ ")")))], .halted) := by
  unfold pollStep
  simp only [hc, Bool.false_eq_true, if_false, hr, Value_of_failed s hs]

theorem contains_mid (a b c : String) : Contains (a ++ b ++ c) b := by
  unfold Contains
  refine ⟨a.data, c.data, ?_⟩
  simp [String.data_append]

theorem contains_failed_detail (detail code : String) :
    Contains ("build failed: " ++ (detail ++ " (status " ++ code ++ ")")) detail := by
  unfold Contains
  refine ⟨"build failed: ".data, (" (status " ++ code ++ ")").data, ?_⟩
  simp [String.data_append]

theorem contains_failed_code (detail code : String) :
    Contains ("build failed: " ++ (detail ++ " (status " ++ code ++ ")")) code := by
  unfold Contains
  refine ⟨("build failed: " ++ detail ++ " (status ").data, ")".data, ?_⟩
  simp [String.data_append]

theorem pollStep_cancelled (hash : String) (i : PollIn) (hc : i.cancelled = true) :
    pollStep hash i = ([.send (.error ctxErr)], .halted) := by
  unfold pollStep
  simp [hc]

theorem pollStep_network (hash : String) (hne : hash ≠ "") (i : PollIn) :
    ∀ a ∈ (pollStep hash i).1, a.isNetwork = true → a = .status hash := by
  intro a ha hn
  by_cases hc : i.cancelled = true
  · rw [pollStep_cancelled hash i hc] at ha
    simp only [List.mem_singleton] at ha
    subst ha
    simp [Act.isNetwork] at hn
  · simp only [Bool.not_eq_true] at hc
    obtain ⟨tail, htr, htail⟩ := pollStep_known hash hne i hc
    rw [htr, List.mem_cons] at ha
    rcases ha with ha | ha
    · exact ha
    · rw [htail a ha] at hn
      simp at hn

theorem netCalls_append (a b : List Act) : netCalls (a ++ b) = netCalls a ++ netCalls b := by
  simp [netCalls]

theorem netCalls_callActs (hash : String) : netCalls (callActs hash) = [callFor hash] := by
  unfold callActs callFor netCalls
  split <;> simp [Act.isNetwork]

theorem pollLoop_netCalls (pre : List PollIn) (hpre : ∀ j ∈ pre, j.inProgress = true) :
    ∀ hash : String,
    netCalls (pollLoop hash pre).1 = (handlesBefore hash pre).map callFor := by
  induction pre with
  | nil => intro hash; simp [pollLoop, netCalls, handlesBefore]
  | cons i pre ih =>
    intro hash
    obtain ⟨s, _, hstep⟩ := pollStep_inProgress hash i (hpre i (List.mem_cons_self _ _))
    have ih1 := ih (fun j hj => hpre j (List.mem_cons_of_mem _ hj)) (latestHandle hash [i])
    simp only [pollLoop, hstep, netCalls_append, netCalls_callActs, ih1, handlesBefore,
      List.map_cons]
    simp [netCalls, Act.isNetwork]

theorem pollLoop_continues (pre : List PollIn) (i : PollIn) (post : List PollIn)
    (hpre : ∀ j ∈ pre, j.inProgress = true) (hknown : latestHandle "" pre ≠ "")
    (hc : i.cancelled = false) :
    ∃ tail, (pollLoop "" (pre ++ i :: post)).1 =
        (pollLoop "" pre).1 ++ .status (latestHandle "" pre) :: tail ∧
      ∀ a ∈ tail, a ≠ Act.submit := by
  obtain ⟨t0, ht0, _⟩ := pollStep_known (latestHandle "" pre) hknown i hc
  have hns := pollLoop_no_submit (i :: post) _ hknown
  have hhead : ∃ tail, (pollLoop (latestHandle "" pre) (i :: post)).1 =
      .status (latestHandle "" pre) :: tail := by
    rw [pollLoop]
    rcases hp : pollStep (latestHandle "" pre) i with ⟨t, e⟩
    rw [hp] at ht0
    simp only at ht0
    subst ht0
    cases e with
    | again h => exact ⟨_, rfl⟩
    | result r => exact ⟨_, rfl⟩
    | halted => exact ⟨_, rfl⟩
  obtain ⟨tail, htail⟩ := hhead
  refine ⟨tail, ?_, ?_⟩
  · rw [pollLoop_append pre _ hpre "", htail]
  · intro a ha
    apply hns a
    rw [htail]
    exact List.mem_cons_of_mem _ ha

/-- C3. Once a non-empty request hash has been received (the handle after the
iterations `pre`, all of which went round again, is not empty), the next iteration
`i` runs with that most recently received handle; when it is not stopped by
cancellation its one network call is the status poll with that handle, and in any
case it makes no other network call; no iteration from there on submits; the
handle it leaves is again the most recently received non-empty one and is not
empty; and when the reply is a status with code 202 the iteration is exactly:
poll, send the detail text, sleep once. On the trace of the loop itself: the
network calls of the iterations `pre` are, one per iteration, the submission
while no hash had been received and the status poll with the most recently
received hash afterwards; an iteration `i` that is not stopped by cancellation
continues the trace with the status poll with the most recently received hash,
and nothing after it is a submission; and for a reply with code 202 the trace
continues with exactly poll, detail text, sleep, followed by the iterations
`post` run with the handle then known. -/
theorem poll_uses_latest_handle (pre : List PollIn) (i : PollIn) (post : List PollIn)
    (hpre : ∀ j ∈ pre, j.inProgress = true) (hknown : latestHandle "" pre ≠ "") :
    netCalls (pollLoop "" pre).1 = (handlesBefore "" pre).map callFor ∧
      (i.cancelled = false →
        ∃ tail, (pollLoop "" (pre ++ i :: post)).1 =
            (pollLoop "" pre).1 ++ .status (latestHandle "" pre) :: tail ∧
          ∀ a ∈ tail, a ≠ Act.submit) ∧
      (∀ s, i.cancelled = false → i.reply = .status s → s.Status = 202 →
        pollLoop "" (pre ++ i :: post) =
          ((pollLoop "" pre).1 ++
              ([.status (latestHandle "" pre), .send (.str s.Detail), .sleep] ++
                (pollLoop (latestHandle "" (pre ++ [i])) post).1),
            (pollLoop (latestHandle "" (pre ++ [i])) post).2)) ∧
      pollLoop "" (pre ++ i :: post) =
        ((pollLoop "" pre).1 ++ (pollLoop (latestHandle "" pre) (i :: post)).1,
          (pollLoop (latestHandle "" pre) (i :: post)).2) ∧
      (i.cancelled = false →
        ∃ tail, (pollStep (latestHandle "" pre) i).1 = .status (latestHandle "" pre) :: tail ∧
          ∀ a ∈ tail, a.isNetwork = false) ∧
      (∀ a ∈ (pollStep (latestHandle "" pre) i).1, a.isNetwork = true →
        a = .status (latestHandle "" pre)) ∧
      (∀ a ∈ (pollLoop (latestHandle "" pre) (i :: post)).1, a ≠ Act.submit) ∧
      (∀ h1, (pollStep (latestHandle "" pre) i).2 = .again h1 →
        h1 = latestHandle "" (pre ++ [i]) ∧ h1 ≠ "") ∧
      (∀ s, i.cancelled = false → i.reply = .status s → s.Status = 202 →
        pollStep (latestHandle "" pre) i =
          ([.status (latestHandle "" pre), .send (.str s.Detail), .sleep],
            .again (latestHandle "" (pre ++ [i])))) := by
  have h202 : ∀ s, i.cancelled = false → i.reply = .status s → s.Status = 202 →
      pollStep (latestHandle "" pre) i =
        ([.status (latestHandle "" pre), .send (.str s.Detail), .sleep],
          .again (latestHandle "" (pre ++ [i]))) := by
    intro s hc hr hs
    have hin : i.inProgress = true := by
      unfold PollIn.inProgress
      simp [hc, hr, hs]
    obtain ⟨s1, hr1, hstep⟩ := pollStep_inProgress (latestHandle "" pre) i hin
    rw [hr] at hr1
    cases hr1
    rw [hstep, latestHandle_append]
    simp [callActs, hknown]
  refine ⟨pollLoop_netCalls pre hpre "", pollLoop_continues pre i post hpre hknown, ?_,
    pollLoop_append pre _ hpre "", pollStep_known _ hknown i,
    pollStep_network _ hknown i, pollLoop_no_submit _ _ hknown, ?_, h202⟩
  · intro s hc hr hs
    rw [pollLoop_append pre _ hpre "", pollLoop, h202 s hc hr hs]
  · intro h1 hh
    obtain ⟨s, _, hstep⟩ := pollStep_inProgress (latestHandle "" pre) i
      (pollStep_again_inProgress _ _ _ hh)
    rw [hstep] at hh
    simp only [StepEnd.again.injEq] at hh
    rw [latestHandle_append, hh]
    exact ⟨rfl, hh ▸ latestHandle_ne [i] _ hknown⟩

/-- C4. `Value` is the detail text for the codes 200 and 202 and otherwise the
error `"<detail> (status <code>)"`; and when an iteration of the poll loop of a
worker receives a status with a code other than 200 and 202, the worker returns,
and what it did is: the iterations before, the network call of this iteration,
and one last event, an error whose text contains the detail text and the decimal
code. -/
theorem value_and_failed_status (s : BuildStatus) :
    ((s.Status = 200 ∨ s.Status = 202) → s.Value = .str s.Detail) ∧
      (¬ (s.Status = 200 ∨ s.Status = 202) →
        s.Value = .error (s.Detail ++ " (status " ++ toString s.Status ++ ")") ∧
        ∀ (L : Lib) (fs : FS) (pre : List PollIn) (i : PollIn) (post : List PollIn)
          (saveErr : Option String) (dls : List DlIn),
          (∀ j ∈ pre, j.inProgress = true) → i.cancelled = false → i.reply = .status s →
          ∃ msg, asu1 L ⟨pre ++ i :: post, saveErr, dls⟩ fs =
              ⟨(pollLoop "" pre).1 ++ callActs (latestHandle "" pre) ++ [.send (.error msg)],
                fs, true⟩ ∧
            Contains msg s.Detail ∧ Contains msg (toString s.Status)) := by
  refine ⟨Value_of_inProgress s, fun hs => ⟨Value_of_failed s hs, ?_⟩⟩
  intro L fs pre i post saveErr dls hpre hc hr
  refine ⟨_, ?_, contains_failed_detail s.Detail (toString s.Status),
    contains_failed_code s.Detail (toString s.Status)⟩
  unfold asu1
  simp only [pollLoop_append pre _ hpre "", pollLoop, pollStep_failed _ i s hc hr hs,
    List.append_assoc]

/-! ## Cancellation -/

theorem downloadStep_cancelled (L : Lib) (res : BuildResponse) (n : Nat) (x : Image)
    (d : DlIn) (fs : FS) (hc : d.cancelled = true) :
    downloadStep L res n x d fs = ⟨[.send (.error ctxErr)], fs, [], .halted⟩ := by
  unfold downloadStep
  simp [hc]

theorem downloadLoop_append (L : Lib) (res : BuildResponse) (xs1 : List Image) :
    ∀ (n : Nat) (ds1 : List DlIn) (fs : FS) (xs2 : List Image) (ds2 : List DlIn),
    xs1.length = ds1.length → (downloadLoop L res n xs1 ds1 fs).fin = .next →
    downloadLoop L res n (xs1 ++ xs2) (ds1 ++ ds2) fs =
      ⟨(downloadLoop L res n xs1 ds1 fs).acts ++
          (downloadLoop L res (n + xs1.length) xs2 ds2 (downloadLoop L res n xs1 ds1 fs).fs).acts,
        (downloadLoop L res (n + xs1.length) xs2 ds2 (downloadLoop L res n xs1 ds1 fs).fs).fs,
        (downloadLoop L res n xs1 ds1 fs).deferred ++
          (downloadLoop L res (n + xs1.length) xs2 ds2
            (downloadLoop L res n xs1 ds1 fs).fs).deferred,
        (downloadLoop L res (n + xs1.length) xs2 ds2
          (downloadLoop L res n xs1 ds1 fs).fs).fin⟩ := by
  induction xs1 with
  | nil =>
    intro n ds1 fs xs2 ds2 hlen _
    cases ds1 with
    | nil => simp [downloadLoop]
    | cons d ds => simp at hlen
  | cons x xs ih =>
    intro n ds1 fs xs2 ds2 hlen hfin
    cases ds1 with
    | nil => simp at hlen
    | cons d ds =>
      simp only [List.length_cons, Nat.add_right_cancel_iff] at hlen
      simp only [downloadLoop] at hfin
      cases hstep : (downloadStep L res n x d fs).fin with
      | halted => simp [hstep] at hfin
      | starved => simp [hstep] at hfin
      | next =>
        simp only [hstep] at hfin
        have ih1 := ih (n + 1) ds (downloadStep L res n x d fs).fs xs2 ds2 hlen hfin
        have harith : n + 1 + xs.length = n + (xs.length + 1) := by omega
        simp only [List.cons_append, downloadLoop, hstep, List.append_eq, ih1, harith,
          List.length_cons, List.append_assoc]

/-- C5. A worker that finds its context cancelled at the top of an iteration of
the poll loop, or at the top of the download of an image, sends the cancellation
error as its last event and returns, and that iteration makes no network call:
(1) for the poll iteration reached after the iterations `pre`; (2) for the download
reached after the images `xs1` have been downloaded; (3) a worker started with a
cancelled context does nothing but send the cancellation error. -/
theorem cancelled_halts_without_call (L : Lib) (fs : FS) :
    (∀ (pre : List PollIn) (i : PollIn) (post : List PollIn) (saveErr : Option String)
        (dls : List DlIn),
        (∀ j ∈ pre, j.inProgress = true) → i.cancelled = true →
        pollStep (latestHandle "" pre) i = ([.send (.error ctxErr)], .halted) ∧
        asu1 L ⟨pre ++ i :: post, saveErr, dls⟩ fs =
          ⟨(pollLoop "" pre).1 ++ [.send (.error ctxErr)], fs, true⟩) ∧
      (∀ (w : World) (a : List Act) (res : BuildResponse) (fs1 : FS) (xs1 : List Image)
        (x : Image) (xs2 : List Image) (ds1 : List DlIn) (d : DlIn) (ds2 : List DlIn),
        pollLoop "" w.polls = (a, .result res) →
        saveResult res w.saveErr fs = ([], fs1, .next) →
        res.Images = xs1 ++ x :: xs2 → w.downloads = ds1 ++ d :: ds2 →
        xs1.length = ds1.length → (downloadLoop L res 0 xs1 ds1 fs1).fin = .next →
        d.cancelled = true →
        downloadStep L res xs1.length x d (downloadLoop L res 0 xs1 ds1 fs1).fs =
          ⟨[.send (.error ctxErr)], (downloadLoop L res 0 xs1 ds1 fs1).fs, [], .halted⟩ ∧
        (asu1 L w fs).closed = true ∧
        (asu1 L w fs).acts =
          a ++ (downloadLoop L res 0 xs1 ds1 fs1).acts ++ [.send (.error ctxErr)]) ∧
      (∀ (w : World) (i : PollIn) (rest : List PollIn),
        w.polls = i :: rest → i.cancelled = true →
        asu1 L w fs = ⟨[.send (.error ctxErr)], fs, true⟩) := by
  refine ⟨?_, ?_, ?_⟩
  · intro pre i post saveErr dls hpre hc
    refine ⟨pollStep_cancelled _ i hc, ?_⟩
    unfold asu1
    simp only [pollLoop_append pre _ hpre "", pollLoop, pollStep_cancelled _ i hc]
  · intro w a res fs1 xs1 x xs2 ds1 d ds2 hpoll hsave himg hdl hlen hfin hc
    refine ⟨downloadStep_cancelled _ _ _ _ _ _ hc, ?_⟩
    have hloop := downloadLoop_append L res xs1 0 ds1 fs1 (x :: xs2) (d :: ds2) hlen hfin
    simp only [downloadLoop, downloadStep_cancelled _ _ _ _ _ _ hc, Nat.zero_add] at hloop
    unfold asu1
    simp only [hpoll, hsave, himg, hdl, hloop, List.append_nil]
    exact ⟨trivial, (List.append_assoc _ _ _).symm⟩
  · intro w i rest hw hc
    unfold asu1
    simp only [hw, pollLoop, pollStep_cancelled _ i hc]

/-! ## The fan-in loop -/

theorem selectStep_cases (s : Orch) (pk : Pick) (s1 : Orch) (h : selectStep s pk = some s1) :
    ∃ c i, s.sch[pk.chosen]? = some c ∧ s.sci[pk.chosen]? = some i ∧
      ((s.chans c = [] ∧
          s1 = { s with
            sci := s.sci.eraseIdx pk.chosen
            sch := s.sch.eraseIdx pk.chosen
            log := s.log ++ [.closed c i] }) ∨
        (∃ e rest, s.chans c = e :: rest ∧ (s.done || pk.interrupted) = true ∧
          s1 = { s with
            chans := fun c1 => if c1 = c then rest else s.chans c1
            done := true
            log := s.log ++ [.skipped c i e] }) ∨
        (∃ status rest, s.chans c = .str status :: rest ∧
          (s.done || pk.interrupted) = false ∧ i < s.dst.length ∧
          s1 = { s with
            chans := fun c1 => if c1 = c then rest else s.chans c1
            dst := s.dst.set i status
            log := s.log ++ [.shown c i (.str status)] }) ∨
        (∃ status rest, s.chans c = .error status :: rest ∧
          (s.done || pk.interrupted) = false ∧ i < s.dst.length ∧
          s1 = { s with
            chans := fun c1 => if c1 = c then rest else s.chans c1
            dst := s.dst.set i ("error: " ++ status)
            stderr := s.stderr ++ [status]
            done := true
            errored := true
            log := s.log ++ [.shown c i (.error status)] })) := by
  unfold selectStep at h
  cases hc : s.sch[pk.chosen]? with
  | none => simp [hc] at h
  | some c =>
    cases hi : s.sci[pk.chosen]? with
    | none => simp [hc, hi] at h
    | some i =>
      refine ⟨c, i, rfl, rfl, ?_⟩
      simp only [hc, hi] at h
      cases hch : s.chans c with
      | nil =>
        simp only [hch, Option.some.injEq] at h
        exact Or.inl ⟨rfl, h.symm⟩
      | cons e rest =>
        simp only [hch] at h
        by_cases hd : (s.done || pk.interrupted) = true
        · simp only [hd, if_true, Option.some.injEq] at h
          exact Or.inr (Or.inl ⟨e, rest, rfl, hd, h.symm⟩)
        · simp only [Bool.not_eq_true] at hd
          simp only [hd, Bool.false_eq_true, if_false] at h
          by_cases hlt : i < s.dst.length
          · simp only [hlt, if_true] at h
            cases e with
            | str status =>
              simp only [Option.some.injEq] at h
              exact Or.inr (Or.inr (Or.inl ⟨status, rest, rfl, hd, hlt, h.symm⟩))
            | error status =>
              simp only [Option.some.injEq] at h
              exact Or.inr (Or.inr (Or.inr ⟨status, rest, rfl, hd, hlt, h.symm⟩))
          · simp [hlt] at h

theorem loopRun_induct (P : Orch → Prop) (Q : Pick → Prop)
    (hstep : ∀ s pk s1, Q pk → P s → selectStep s pk = some s1 → P s1) :
    ∀ (picks : List Pick) (s s1 : Orch), (∀ pk ∈ picks, Q pk) → P s →
      loopRun s picks = some s1 → P s1 := by
  intro picks
  induction picks with
  | nil =>
    intro s s1 _ hP h
    simp only [loopRun, Option.some.injEq] at h
    exact h ▸ hP
  | cons pk rest ih =>
    intro s s1 hQ hP h
    simp only [loopRun] at h
    cases hs : selectStep s pk with
    | none => simp [hs] at h
    | some s2 =>
      simp only [hs, Option.some_bind] at h
      exact ih s2 s1 (fun q hq => hQ q (List.mem_cons_of_mem _ hq))
        (hstep s pk s2 (hQ pk (List.mem_cons_self _ _)) hP hs) h

theorem map_eraseIdx_eq {α β : Type} (f : α → β) (l : List α) :
    ∀ p : Nat, (l.eraseIdx p).map f = (l.map f).eraseIdx p := by
  induction l with
  | nil => intro p; rfl
  | cons a t ih =>
    intro p
    cases p with
    | zero => rfl
    | succ p => simp [List.eraseIdx, ih p]

theorem perm_eraseIdx_of_getElem? {α : Type} (l : List α) :
    ∀ (p : Nat) (a : α), l[p]? = some a → (a :: l.eraseIdx p).Perm l := by
  induction l with
  | nil => intro p a h; simp at h
  | cons b t ih =>
    intro p a h
    cases p with
    | zero =>
      simp only [List.getElem?_cons_zero, Option.some.injEq] at h
      subst h
      exact List.Perm.refl _
    | succ p =>
      simp only [List.getElem?_cons_succ] at h
      simp only [List.eraseIdx]
      exact (List.Perm.swap b a _).trans ((ih p a h).cons b)

theorem closedTasks_append (l1 l2 : List Obs) :
    closedTasks (l1 ++ l2) = closedTasks l1 ++ closedTasks l2 := by
  induction l1 with
  | nil => rfl
  | cons o t ih => cases o <;> simp [closedTasks, ih]

theorem mem_closedTasks (log : List Obs) (k : Nat) (h : k ∈ closedTasks log) :
    ∃ c, Obs.closed c k ∈ log := by
  induction log with
  | nil => simp [closedTasks] at h
  | cons o t ih =>
    cases o with
    | closed c k1 =>
      simp only [closedTasks, List.mem_cons] at h
      rcases h with rfl | h
      · exact ⟨c, List.mem_cons_self _ _⟩
      · obtain ⟨c1, hc1⟩ := ih h
        exact ⟨c1, List.mem_cons_of_mem _ hc1⟩
    | skipped c k1 e =>
      obtain ⟨c1, hc1⟩ := ih (by simpa [closedTasks] using h)
      exact ⟨c1, List.mem_cons_of_mem _ hc1⟩
    | shown c k1 e =>
      obtain ⟨c1, hc1⟩ := ih (by simpa [closedTasks] using h)
      exact ⟨c1, List.mem_cons_of_mem _ hc1⟩

theorem shownText_append_one (k : Nat) (log : List Obs) (o : Obs) :
    shownText k (log ++ [o]) =
      match o with
      | .shown _ k1 e => if k1 = k then statusText e else shownText k log
      | _ => shownText k log := by
  unfold shownText
  rw [List.foldl_append]
  cases o <;> rfl

theorem LoopInv.at_start (dch : List Chan) (chans : Chan → List Event) :
    LoopInv dch chans (initOrch dch chans) where
  chan_of := by
    simp only [initOrch]
    apply List.ext_getElem?
    intro n
    simp only [List.getElem?_map]
    by_cases hn : n < dch.length
    · simp [List.getElem?_range hn, List.getElem?_eq_getElem hn]
    · have h1 : (List.range dch.length)[n]? = none := by
        apply List.getElem?_eq_none
        simpa using hn
      have h2 : dch[n]? = none := List.getElem?_eq_none (by omega)
      simp [h1, h2]
  sorted := by
    simp only [initOrch]
    exact List.pairwise_lt_range _
  dst_len := by simp [initOrch]
  closed_perm := by simp [initOrch, closedTasks]
  log_chan := by simp [initOrch]
  pending := by simp [initOrch]
  errored_iff := by simp [initOrch]
  shown_from := by simp [initOrch]
  dst_eq := by
    intro k hk
    simp [initOrch, shownText, List.getElem?_replicate, hk]
  drained := by simp [initOrch]

theorem LoopInv.chan_at {dch : List Chan} {chans0 : Chan → List Event} {s : Orch}
    (inv : LoopInv dch chans0 s) {p : Nat} {c : Chan} {i : Nat}
    (hc : s.sch[p]? = some c) (hi : s.sci[p]? = some i) : dch[i]? = some c := by
  have h := congrArg (fun l => l[p]?) inv.chan_of
  simp only [List.getElem?_map, hc, hi, Option.map_some', Option.some.injEq] at h
  exact h

theorem mem_of_getElem?_eq {α : Type} {l : List α} {i : Nat} {a : α} (h : l[i]? = some a) :
    a ∈ l := by
  rw [List.getElem?_eq_some_iff] at h
  obtain ⟨hlt, rfl⟩ := h
  exact List.getElem_mem hlt

theorem LoopInv.after_step {dch : List Chan} {chans0 : Chan → List Event} {s : Orch}
    (inv : LoopInv dch chans0 s) (pk : Pick) (s1 : Orch) (h : selectStep s pk = some s1) :
    LoopInv dch chans0 s1 := by
  obtain ⟨c, i, hc, hi, hcase⟩ := selectStep_cases s pk s1 h
  have hdc : dch[i]? = some c := inv.chan_at hc hi
  have hcm : c ∈ dch := mem_of_getElem?_eq hdc
  have hilt : i < dch.length := by
    rw [List.getElem?_eq_some_iff] at hdc
    exact hdc.1
  have hpend : ∀ e rest, s.chans c = e :: rest → ∀ c1, ∀ e1 ∈ (if c1 = c then rest else s.chans c1),
      e1 ∈ chans0 c1 := by
    intro e rest hch c1 e1 he1
    by_cases hcc : c1 = c
    · subst hcc
      simp only [if_true] at he1
      exact inv.pending c1 e1 (hch ▸ List.mem_cons_of_mem _ he1)
    · simp only [hcc, if_false] at he1
      exact inv.pending c1 e1 he1
  have hdrain : ∀ (o : Obs) e rest, s.chans c = e :: rest → (∀ c1 k, o ≠ .closed c1 k) →
      ∀ c1 k, Obs.closed c1 k ∈ s.log ++ [o] →
        (if c1 = c then rest else s.chans c1) = [] := by
    intro o e rest hch ho c1 k hmem
    simp only [List.mem_append, List.mem_singleton] at hmem
    rcases hmem with hmem | hmem
    · have hempty := inv.drained c1 k hmem
      by_cases hcc : c1 = c
      · subst hcc
        rw [hch] at hempty
        simp at hempty
      · simpa [hcc] using hempty
    · exact absurd hmem.symm (ho c1 k)
  rcases hcase with ⟨hch, rfl⟩ | ⟨e, rest, hch, _, rfl⟩ | ⟨st, rest, hch, _, hlt, rfl⟩ |
    ⟨st, rest, hch, _, hlt, rfl⟩
  · -- the channel was closed
    refine ⟨?_, ?_, inv.dst_len, ?_, ?_, inv.pending, ?_, ?_, ?_, ?_⟩
    · simp only [map_eraseIdx_eq, inv.chan_of]
    · exact inv.sorted.sublist (List.eraseIdx_sublist _ _)
    · simp only [closedTasks_append, closedTasks, List.append_assoc, List.singleton_append]
      exact ((perm_eraseIdx_of_getElem? s.sci pk.chosen i hi).append_left _).trans
        inv.closed_perm
    · intro o ho
      simp only [List.mem_append, List.mem_singleton] at ho
      rcases ho with ho | rfl
      · exact inv.log_chan o ho
      · exact hdc
    · simp only [List.mem_append, List.mem_singleton, reduceCtorEq, or_false]
      exact inv.errored_iff
    · intro c1 k e he
      simp only [List.mem_append, List.mem_singleton, reduceCtorEq, or_false] at he
      exact inv.shown_from c1 k e he
    · intro k hk
      simp only [shownText_append_one]
      exact inv.dst_eq k hk
    · intro c1 k hmem
      simp only [List.mem_append, List.mem_singleton, Obs.closed.injEq] at hmem
      rcases hmem with hmem | ⟨rfl, _⟩
      · exact inv.drained c1 k hmem
      · exact hch
  · -- an event was dropped
    refine ⟨inv.chan_of, inv.sorted, inv.dst_len, ?_, ?_, hpend e rest hch, ?_, ?_, ?_,
      hdrain _ e rest hch (by simp)⟩
    · simp only [closedTasks_append, closedTasks, List.append_nil]
      exact inv.closed_perm
    · intro o ho
      simp only [List.mem_append, List.mem_singleton] at ho
      rcases ho with ho | rfl
      · exact inv.log_chan o ho
      · exact hdc
    · simp only [List.mem_append, List.mem_singleton, reduceCtorEq, or_false]
      exact inv.errored_iff
    · intro c1 k e1 he
      simp only [List.mem_append, List.mem_singleton, reduceCtorEq, or_false] at he
      exact inv.shown_from c1 k e1 he
    · intro k hk
      simp only [shownText_append_one]
      exact inv.dst_eq k hk
  · -- a text was stored
    have hmem : Event.str st ∈ chans0 c := inv.pending c _ (hch ▸ List.mem_cons_self _ _)
    refine ⟨inv.chan_of, inv.sorted, ?_, ?_, ?_, hpend _ rest hch, ?_, ?_, ?_,
      hdrain _ _ rest hch (by simp)⟩
    · simp only [List.length_set]
      exact inv.dst_len
    · simp only [closedTasks_append, closedTasks, List.append_nil]
      exact inv.closed_perm
    · intro o ho
      simp only [List.mem_append, List.mem_singleton] at ho
      rcases ho with ho | rfl
      · exact inv.log_chan o ho
      · exact hdc
    · simp only [List.mem_append, List.mem_singleton, Obs.shown.injEq, reduceCtorEq, and_false,
        or_false]
      exact inv.errored_iff
    · intro c1 k e1 he
      simp only [List.mem_append, List.mem_singleton, Obs.shown.injEq] at he
      rcases he with he | ⟨rfl, rfl, rfl⟩
      · exact inv.shown_from c1 k e1 he
      · exact ⟨hcm, hmem⟩
    · intro k hk
      simp only [shownText_append_one]
      by_cases hik : i = k
      · subst hik
        simp [List.getElem?_set_self hlt, statusText]
      · simp only [hik, if_false, List.getElem?_set_ne hik]
        exact inv.dst_eq k hk
  · -- an error was stored
    have hmem : Event.error st ∈ chans0 c := inv.pending c _ (hch ▸ List.mem_cons_self _ _)
    refine ⟨inv.chan_of, inv.sorted, ?_, ?_, ?_, hpend _ rest hch, ?_, ?_, ?_,
      hdrain _ _ rest hch (by simp)⟩
    · simp only [List.length_set]
      exact inv.dst_len
    · simp only [closedTasks_append, closedTasks, List.append_nil]
      exact inv.closed_perm
    · intro o ho
      simp only [List.mem_append, List.mem_singleton] at ho
      rcases ho with ho | rfl
      · exact inv.log_chan o ho
      · exact hdc
    · simp only [true_iff]
      exact ⟨c, i, st, by simp⟩
    · intro c1 k e1 he
      simp only [List.mem_append, List.mem_singleton, Obs.shown.injEq] at he
      rcases he with he | ⟨rfl, rfl, rfl⟩
      · exact inv.shown_from c1 k e1 he
      · exact ⟨hcm, hmem⟩
    · intro k hk
      simp only [shownText_append_one]
      by_cases hik : i = k
      · subst hik
        simp [List.getElem?_set_self hlt, statusText]
      · simp only [hik, if_false, List.getElem?_set_ne hik]
        exact inv.dst_eq k hk

theorem LoopInv.of_run (dch : List Chan) (chans : Chan → List Event) (picks : List Pick)
    (s : Orch) (h : loopRun (initOrch dch chans) picks = some s) : LoopInv dch chans s :=
  loopRun_induct (LoopInv dch chans) (fun _ => True)
    (fun _ pk s1 _ inv hs => inv.after_step pk s1 hs) picks _ s (fun _ _ => trivial)
    (LoopInv.at_start dch chans) h

theorem QuietInv.holds_at_start (dch : List Chan) (chans : Chan → List Event) :
    QuietInv dch chans (initOrch dch chans) where
  done_errored := by simp [initOrch]
  error_ahead := Or.inr (fun _ hc he => ⟨hc, he⟩)

theorem QuietInv.kept_by_step {dch : List Chan} {chans0 : Chan → List Event} {s : Orch}
    (inv : QuietInv dch chans0 s) (pk : Pick) (hq : pk.interrupted = false) (s1 : Orch)
    (h : selectStep s pk = some s1) : QuietInv dch chans0 s1 := by
  obtain ⟨c, i, hc, hi, hcase⟩ := selectStep_cases s pk s1 h
  rcases hcase with ⟨hch, rfl⟩ | ⟨e, rest, hch, hd, rfl⟩ | ⟨st, rest, hch, hd, hlt, rfl⟩ |
    ⟨st, rest, hch, hd, hlt, rfl⟩
  · refine ⟨inv.done_errored, ?_⟩
    rcases inv.error_ahead with he | ha
    · exact Or.inl he
    · refine Or.inr (fun c1 hc1 herr => ?_)
      obtain ⟨hin, hpend⟩ := ha c1 hc1 herr
      have hne : c1 ≠ c := by
        rintro rfl
        obtain ⟨e, he, _⟩ := hpend
        simp [hch] at he
      refine ⟨?_, hpend⟩
      obtain ⟨j, hj⟩ := List.getElem?_of_mem hin
      rw [List.mem_eraseIdx_iff_getElem?]
      refine ⟨j, ?_, hj⟩
      rintro rfl
      rw [hc] at hj
      exact hne (Option.some.inj hj).symm
  · have hdone : s.done = true := by simpa [hq] using hd
    exact ⟨fun _ => inv.done_errored hdone, Or.inl (inv.done_errored hdone)⟩
  · refine ⟨inv.done_errored, ?_⟩
    rcases inv.error_ahead with he | ha
    · exact Or.inl he
    · refine Or.inr (fun c1 hc1 herr => ?_)
      obtain ⟨hin, e, he, hee⟩ := ha c1 hc1 herr
      refine ⟨hin, e, ?_, hee⟩
      by_cases hcc : c1 = c
      · subst hcc
        simp only [if_true]
        rw [hch, List.mem_cons] at he
        rcases he with rfl | he
        · simp [Event.isError] at hee
        · exact he
      · simpa [hcc] using he
  · exact ⟨fun _ => rfl, Or.inl rfl⟩

theorem QuietInv.of_quiet_run (dch : List Chan) (chans : Chan → List Event) (picks : List Pick)
    (hq : ∀ pk ∈ picks, pk.interrupted = false)
    (s : Orch) (h : loopRun (initOrch dch chans) picks = some s) : QuietInv dch chans s :=
  loopRun_induct (QuietInv dch chans) (fun pk => pk.interrupted = false)
    (fun _ pk s1 hpk inv hs => inv.kept_by_step pk hpk s1 hs) picks _ s hq
    (QuietInv.holds_at_start dch chans) h

theorem mem_dropLast_or_last {α : Type} (l : List α) (a : α) (h : a ∈ l) :
    a ∈ l.dropLast ∨ l.getLast? = some a := by
  cases hl : l.getLast? with
  | none =>
    rw [List.getLast?_eq_none_iff] at hl
    subst hl
    simp at h
  | some b =>
    have : l.dropLast ++ [b] = l := List.dropLast_append_getLast? b (Option.mem_def.mpr hl)
    rw [← this, List.mem_append, List.mem_singleton] at h
    rcases h with h | rfl
    · exact Or.inl h
    · exact Or.inr rfl

theorem LoopInv.length_eq {dch : List Chan} {chans0 : Chan → List Event} {s : Orch}
    (inv : LoopInv dch chans0 s) : s.sci.length = s.sch.length := by
  have h := congrArg List.length inv.chan_of
  simpa using h

theorem LoopInv.closed_count {dch : List Chan} {chans0 : Chan → List Event} {s : Orch}
    (inv : LoopInv dch chans0 s) :
    (closedTasks s.log).length + s.sch.length = dch.length := by
  have h := inv.closed_perm.length_eq
  simp only [List.length_append, List.length_range] at h
  rw [← inv.length_eq]
  exact h

theorem selectStep_total {dch : List Chan} {chans0 : Chan → List Event} {s : Orch}
    (inv : LoopInv dch chans0 s) (pk : Pick) (hp : pk.chosen < s.sch.length) :
    ∃ s1, selectStep s pk = some s1 := by
  have hp1 : pk.chosen < s.sci.length := inv.length_eq ▸ hp
  have hc : s.sch[pk.chosen]? = some s.sch[pk.chosen] := List.getElem?_eq_getElem hp
  have hi : s.sci[pk.chosen]? = some s.sci[pk.chosen] := List.getElem?_eq_getElem hp1
  have hdc := inv.chan_at hc hi
  have hlt : s.sci[pk.chosen] < s.dst.length := by
    rw [List.getElem?_eq_some_iff] at hdc
    rw [inv.dst_len]
    exact hdc.1
  unfold selectStep
  simp only [hc, hi]
  cases hch : s.chans s.sch[pk.chosen] with
  | nil => exact ⟨_, rfl⟩
  | cons e rest =>
    simp only
    by_cases hd : (s.done || pk.interrupted) = true
    · simp only [hd, if_true]
      exact ⟨_, rfl⟩
    · simp only [hd, hlt, if_true]
      cases e <;> exact ⟨_, rfl⟩

theorem receivedOn_append_one (c : Chan) (log : List Obs) (o : Obs) :
    receivedOn c (log ++ [o]) =
      receivedOn c log ++ (if o.chan = c then o.event.toList else []) := by
  unfold receivedOn
  by_cases h : o.chan = c
  · cases ho : o.event <;> simp [List.filter_append, List.filterMap_append, h, ho]
  · simp [List.filter_append, List.filterMap_append, h]

theorem received_kept {chans0 : Chan → List Event} (s : Orch) (pk : Pick) (s1 : Orch)
    (hP : ∀ c, receivedOn c s.log ++ s.chans c = chans0 c)
    (h : selectStep s pk = some s1) :
    ∀ c, receivedOn c s1.log ++ s1.chans c = chans0 c := by
  obtain ⟨c, i, _, _, hcase⟩ := selectStep_cases s pk s1 h
  have hev : ∀ (o : Obs) e rest, s.chans c = e :: rest → o.chan = c → o.event = some e →
      ∀ c1, receivedOn c1 (s.log ++ [o]) ++ (if c1 = c then rest else s.chans c1) =
        chans0 c1 := by
    intro o e rest hch hoc hoe c1
    rw [receivedOn_append_one, hoc, hoe]
    by_cases hcc : c1 = c
    · subst hcc
      simp only [if_true, Option.toList, List.append_assoc, List.singleton_append]
      rw [← hch]
      exact hP c1
    · have hcc1 : ¬ c = c1 := fun h => hcc h.symm
      simp only [hcc, hcc1, if_false, List.append_nil]
      exact hP c1
  rcases hcase with ⟨_, rfl⟩ | ⟨e, rest, hch, _, rfl⟩ | ⟨st, rest, hch, _, _, rfl⟩ |
    ⟨st, rest, hch, _, _, rfl⟩
  · intro c1
    simp only [receivedOn_append_one, Obs.event, Option.toList, ite_self, List.append_nil]
    exact hP c1
  · exact hev _ e rest hch rfl rfl
  · exact hev _ _ rest hch rfl rfl
  · exact hev _ _ rest hch rfl rfl

theorem received_of_run (dch : List Chan) (chans : Chan → List Event) (picks : List Pick)
    (s : Orch) (h : loopRun (initOrch dch chans) picks = some s) :
    ∀ c, receivedOn c s.log ++ s.chans c = chans c :=
  loopRun_induct (fun s => ∀ c, receivedOn c s.log ++ s.chans c = chans c) (fun _ => True)
    (fun s pk s1 _ hP hs => received_kept s pk s1 hP hs) picks _ s (fun _ _ => trivial)
    (by intro c; simp [initOrch, receivedOn]) h

theorem loopRun_log_length : ∀ (picks : List Pick) (s s1 : Orch),
    loopRun s picks = some s1 → s1.log.length = s.log.length + picks.length := by
  intro picks
  induction picks with
  | nil =>
    intro s s1 h
    simp only [loopRun, Option.some.injEq] at h
    subst h
    rfl
  | cons pk rest ih =>
    intro s s1 h
    simp only [loopRun] at h
    cases hs : selectStep s pk with
    | none => simp [hs] at h
    | some s2 =>
      simp only [hs, Option.some_bind] at h
      have h2 : s2.log.length = s.log.length + 1 := by
        obtain ⟨c, i, _, _, hcase⟩ := selectStep_cases s pk s2 hs
        rcases hcase with ⟨_, rfl⟩ | ⟨_, _, _, _, rfl⟩ | ⟨_, _, _, _, _, rfl⟩ |
          ⟨_, _, _, _, _, rfl⟩ <;> simp
      rw [ih s2 s1 h, h2, List.length_cons]
      omega

theorem receivedBy_eq_receivedOn (dch : List Chan) (hnd : dch.Nodup) (log : List Obs)
    (hlog : ∀ o ∈ log, dch[o.task]? = some o.chan) (k : Nat) (c : Chan)
    (hk : dch[k]? = some c) : receivedBy k log = receivedOn c log := by
  unfold receivedBy receivedOn
  congr 1
  apply List.filter_congr
  intro o ho
  have h1 := hlog o ho
  rw [List.getElem?_eq_some_iff] at h1 hk
  obtain ⟨hlt1, he1⟩ := h1
  obtain ⟨hlt, he⟩ := hk
  by_cases hkk : o.task = k
  · have hcc : o.chan = c := by
      rw [← he1, ← he]
      simp only [hkk]
    simp [hkk, hcc]
  · have hcc : o.chan ≠ c := by
      intro hcc
      apply hkk
      have : dch[o.task] = dch[k] := by rw [he1, he, hcc]
      exact (hnd.getElem_inj_iff).mp this
    simp [hkk, hcc]

theorem not_mem_eraseIdx_of_nodup {l : List Nat} (hnd : l.Nodup) {p k : Nat}
    (h : l[p]? = some k) : k ∉ l.eraseIdx p := by
  have hperm := perm_eraseIdx_of_getElem? l p k h
  have hnd1 : (k :: l.eraseIdx p).Nodup := hperm.nodup_iff.mpr hnd
  exact (List.nodup_cons.mp hnd1).1

theorem selectStep_closed {dch : List Chan} {chans0 : Chan → List Event} {s : Orch}
    (inv : LoopInv dch chans0 s) (pk : Pick) (c : Chan) (k : Nat)
    (hc : s.sch[pk.chosen]? = some c) (hk : s.sci[pk.chosen]? = some k)
    (hch : s.chans c = []) :
    ∃ s1, selectStep s pk = some s1 ∧
      s1.sci = s.sci.eraseIdx pk.chosen ∧ s1.sch = s.sch.eraseIdx pk.chosen ∧
      s1.sch.length + 1 = s.sch.length ∧
      k ∉ s1.sci ∧ (∀ j ∈ s.sci, j ≠ k → j ∈ s1.sci) ∧
      k ∉ closedTasks s.log ∧ closedTasks s1.log = closedTasks s.log ++ [k] ∧
      s1.log = s.log ++ [.closed c k] ∧
      s1.dst = s.dst ∧ s1.errored = s.errored ∧ s1.done = s.done := by
  have hnd : (closedTasks s.log ++ s.sci).Nodup :=
    inv.closed_perm.nodup_iff.mpr (List.nodup_range _)
  have hnd2 := List.nodup_append.mp hnd
  have hkmem : k ∈ s.sci := mem_of_getElem?_eq hk
  have hplt : pk.chosen < s.sch.length := by
    rw [List.getElem?_eq_some_iff] at hc
    exact hc.1
  refine ⟨{ s with
      sci := s.sci.eraseIdx pk.chosen
      sch := s.sch.eraseIdx pk.chosen
      log := s.log ++ [.closed c k] },
    by simp only [selectStep, hc, hk, hch], rfl, rfl, ?_, ?_, ?_, ?_, ?_, rfl, rfl, rfl, rfl⟩
  · simp only [List.length_eraseIdx, hplt, if_true]
    omega
  · exact not_mem_eraseIdx_of_nodup hnd2.2.1 hk
  · intro j hj hjk
    have hperm := perm_eraseIdx_of_getElem? s.sci pk.chosen k hk
    have := hperm.mem_iff.mpr hj
    rcases List.mem_cons.mp this with h | h
    · exact absurd h hjk
    · exact h
  · intro hmem
    exact hnd2.2.2 hmem hkmem
  · simp [closedTasks_append, closedTasks]

theorem selectStep_received {dch : List Chan} {chans0 : Chan → List Event} {s : Orch}
    (inv : LoopInv dch chans0 s) (pk : Pick) (c : Chan) (k : Nat) (e : Event)
    (rest : List Event)
    (hc : s.sch[pk.chosen]? = some c) (hk : s.sci[pk.chosen]? = some k)
    (hch : s.chans c = e :: rest) :
    ∃ s1, selectStep s pk = some s1 ∧
      s1.sci = s.sci ∧ s1.sch = s.sch ∧
      s1.chans c = rest ∧ (∀ c1, c1 ≠ c → s1.chans c1 = s.chans c1) ∧
      dch[k]? = some c ∧
      s1.log = s.log ++
        [if (s.done || pk.interrupted) = true then .skipped c k e else .shown c k e] ∧
      ((s.done || pk.interrupted) = false → s1.dst = s.dst.set k (statusText e)) ∧
      ((s.done || pk.interrupted) = true → s1.dst = s.dst) := by
  have hdc := inv.chan_at hc hk
  have hlt : k < s.dst.length := by
    rw [List.getElem?_eq_some_iff] at hdc
    rw [inv.dst_len]
    exact hdc.1
  unfold selectStep
  simp only [hc, hk, hch]
  by_cases hd : (s.done || pk.interrupted) = true
  · simp only [hd, if_true]
    exact ⟨_, rfl, rfl, rfl, by simp, fun c1 h1 => by simp [h1], hdc, rfl, by simp,
      fun _ => rfl⟩
  · simp only [hd, hlt, if_true, if_false]
    cases e with
    | str status =>
      exact ⟨_, rfl, rfl, rfl, by simp, fun c1 h1 => by simp [h1], hdc, rfl,
        fun _ => by simp [statusText], fun h => Bool.noConfusion h⟩
    | error status =>
      exact ⟨_, rfl, rfl, rfl, by simp, fun c1 h1 => by simp [h1], hdc, rfl,
        fun _ => by simp [statusText], fun h => Bool.noConfusion h⟩

theorem selectStep_out_of_range (s : Orch) (pk : Pick) (h : s.sch.length ≤ pk.chosen) :
    selectStep s pk = none := by
  unfold selectStep
  rw [List.getElem?_eq_none h]

/-- C10. In every state the loop of `main` reaches: the slices `sci` and `sch` have
the same length; `sci` is strictly increasing; the channel at each position of
`sch` is the channel of the worker whose index is at the same position of `sci`;
every iteration so far has been recorded under the index of the worker whose
channel was selected; the indices of the channels removed so far together with
`sci` are exactly `0 .. N-1`, each once, so no channel has been removed twice;
the loop condition `len(sch) != 0` fails exactly when `N` channels have been
removed; a channel is removed only when it has delivered all its events and is
closed, so that when the loop ends every channel has; and the next iteration
never indexes out of range. What an iteration does: on a closed channel it
removes position `i` from both slices, so that `sch` gets shorter by one, the
index of that worker is gone from `sci` for good (it had not been removed
before) and every other index stays; on an event it leaves both slices alone,
takes the event off the selected channel and puts it down to the worker whose
channel that is; with no channel left there is no iteration. Over the run:
there has been one iteration per pick; what has been received on a channel so
far, followed by what the channel still holds, is what the worker sends in all;
and, the channels being distinct, what has been put down to worker `k` is what
has been received on the channel of worker `k`, so that when the loop ends every
worker has been credited with exactly its own events, in order. -/
theorem fan_in_bookkeeping (dch : List Chan) (chans : Chan → List Event) (picks : List Pick)
    (s : Orch) (hrun : loopRun (initOrch dch chans) picks = some s) :
    s.sci.length = s.sch.length ∧
      s.sci.Pairwise (· < ·) ∧
      (∀ (p : Nat) (c : Chan), s.sch[p]? = some c →
        ∃ k, s.sci[p]? = some k ∧ k < dch.length ∧ dch[k]? = some c) ∧
      (∀ o ∈ s.log, dch[o.task]? = some o.chan) ∧
      (closedTasks s.log ++ s.sci).Perm (List.range dch.length) ∧
      (closedTasks s.log).Nodup ∧
      (s.sch.length = 0 ↔ (closedTasks s.log).length = dch.length) ∧
      (∀ c k, Obs.closed c k ∈ s.log → s.chans c = []) ∧
      (s.sch.length = 0 → ∀ c ∈ dch, s.chans c = []) ∧
      (∀ pk : Pick, pk.chosen < s.sch.length → ∃ s1, selectStep s pk = some s1) ∧
      (∀ (pk : Pick) (c : Chan) (k : Nat),
        s.sch[pk.chosen]? = some c → s.sci[pk.chosen]? = some k → s.chans c = [] →
        ∃ s1, selectStep s pk = some s1 ∧
          s1.sci = s.sci.eraseIdx pk.chosen ∧ s1.sch = s.sch.eraseIdx pk.chosen ∧
          s1.sch.length + 1 = s.sch.length ∧
          k ∉ s1.sci ∧ (∀ j ∈ s.sci, j ≠ k → j ∈ s1.sci) ∧
          k ∉ closedTasks s.log ∧ closedTasks s1.log = closedTasks s.log ++ [k] ∧
          s1.log = s.log ++ [.closed c k] ∧
          s1.dst = s.dst ∧ s1.errored = s.errored ∧ s1.done = s.done) ∧
      (∀ (pk : Pick) (c : Chan) (k : Nat) (e : Event) (rest : List Event),
        s.sch[pk.chosen]? = some c → s.sci[pk.chosen]? = some k → s.chans c = e :: rest →
        ∃ s1, selectStep s pk = some s1 ∧
          s1.sci = s.sci ∧ s1.sch = s.sch ∧
          s1.chans c = rest ∧ (∀ c1, c1 ≠ c → s1.chans c1 = s.chans c1) ∧
          dch[k]? = some c ∧
          s1.log = s.log ++
            [if (s.done || pk.interrupted) = true then .skipped c k e else .shown c k e] ∧
          ((s.done || pk.interrupted) = false → s1.dst = s.dst.set k (statusText e)) ∧
          ((s.done || pk.interrupted) = true → s1.dst = s.dst)) ∧
      (∀ pk : Pick, s.sch.length ≤ pk.chosen → selectStep s pk = none) ∧
      s.log.length = picks.length ∧
      (∀ c, receivedOn c s.log ++ s.chans c = chans c) ∧
      (dch.Nodup → ∀ k c, dch[k]? = some c →
        receivedBy k s.log ++ s.chans c = chans c ∧
        (s.sch.length = 0 → receivedBy k s.log = chans c)) := by
  have inv := LoopInv.of_run dch chans picks s hrun
  have hdrained : s.sch.length = 0 → ∀ c ∈ dch, s.chans c = [] := by
    intro hend c hc
    obtain ⟨k, hk⟩ := List.getElem?_of_mem hc
    have hklt : k < dch.length := by
      rw [List.getElem?_eq_some_iff] at hk
      exact hk.1
    have hsci : s.sci = [] := by
      apply List.length_eq_zero.mp
      rw [inv.length_eq]
      exact hend
    have hmem : k ∈ closedTasks s.log := by
      have h := inv.closed_perm.mem_iff (a := k)
      rw [hsci, List.append_nil] at h
      exact h.mpr (List.mem_range.mpr hklt)
    obtain ⟨c1, hc1⟩ := mem_closedTasks s.log k hmem
    have h1 := inv.log_chan _ hc1
    simp only [Obs.task, Obs.chan] at h1
    rw [hk] at h1
    have hcc : c = c1 := Option.some.inj h1
    subst hcc
    exact inv.drained c k hc1
  have hrecv := received_of_run dch chans picks s hrun
  refine ⟨inv.length_eq, inv.sorted, ?_, inv.log_chan, inv.closed_perm, ?_, ?_, inv.drained,
    hdrained, fun pk hp => selectStep_total inv pk hp,
    fun pk c k => selectStep_closed inv pk c k,
    fun pk c k e rest => selectStep_received inv pk c k e rest,
    selectStep_out_of_range s, ?_, hrecv, ?_⟩
  · intro p c hc
    have hp : p < s.sci.length := by
      rw [inv.length_eq]
      rw [List.getElem?_eq_some_iff] at hc
      exact hc.1
    have hi : s.sci[p]? = some s.sci[p] := List.getElem?_eq_getElem hp
    have hdc := inv.chan_at hc hi
    refine ⟨s.sci[p], hi, ?_, hdc⟩
    rw [List.getElem?_eq_some_iff] at hdc
    exact hdc.1
  · have hnd : (closedTasks s.log ++ s.sci).Nodup :=
      inv.closed_perm.nodup_iff.mpr (List.nodup_range _)
    exact (List.nodup_append.mp hnd).1
  · have h := inv.closed_count
    omega
  · have h := loopRun_log_length picks _ s hrun
    simpa [initOrch] using h
  · intro hnd k c hk
    have heq := receivedBy_eq_receivedOn dch hnd s.log inv.log_chan k c hk
    refine ⟨by rw [heq]; exact hrecv c, fun hend => ?_⟩
    have h1 := hrecv c
    rw [hdrained hend c (mem_of_getElem?_eq hk), List.append_nil] at h1
    rw [heq]
    exact h1

/-- C1, as the code has it. When the loop of `main` has run and every channel has
been removed, the exit code is 1 exactly when an error was received while
`ctx.Done()` was still open (an error received later is dropped and does not
count). Hence: without an interrupt signal the exit code is 1 as soon as the
terminal event of some task is an error; and it is 0 when the terminal event of
every task is a success. -/
theorem exit_code_of_drained_run (dch : List Chan) (chans : Chan → List Event)
    (picks : List Pick) (s : Orch) (hrun : loopRun (initOrch dch chans) picks = some s)
    (hend : s.sch.length = 0) :
    mainExit dch chans picks = some (exitCode s) ∧
      (exitCode s = 1 ↔ ∃ c k msg, Obs.shown c k (.error msg) ∈ s.log) ∧
      (exitCode s = 0 ↔ ¬ ∃ c k msg, Obs.shown c k (.error msg) ∈ s.log) ∧
      ((∀ pk ∈ picks, pk.interrupted = false) →
        (∃ c ∈ dch, ∃ msg, terminal (chans c) = some (.error msg)) → exitCode s = 1) ∧
      ((∀ c ∈ dch, WellFormed (chans c) ∧ ∃ t, terminal (chans c) = some (.str t)) →
        exitCode s = 0) := by
  have inv := LoopInv.of_run dch chans picks s hrun
  have hex1 : exitCode s = 1 ↔ s.errored = true := by
    unfold exitCode
    cases s.errored <;> simp
  have hex0 : exitCode s = 0 ↔ ¬ s.errored = true := by
    unfold exitCode
    cases s.errored <;> simp
  refine ⟨?_, hex1.trans inv.errored_iff, hex0.trans (not_congr inv.errored_iff), ?_, ?_⟩
  · unfold mainExit
    simp [hrun, hend]
  · intro hq ⟨c, hc, msg, hterm⟩
    have qinv := QuietInv.of_quiet_run dch chans picks hq s hrun
    rw [hex1]
    rcases qinv.error_ahead with he | ha
    · exact he
    · have herr : hasError (chans c) :=
        ⟨.error msg, List.mem_of_mem_getLast? hterm, rfl⟩
      have hin := (ha c hc herr).1
      have hnil : s.sch = [] := List.length_eq_zero.mp hend
      simp [hnil] at hin
  · intro hall
    rw [hex0]
    intro herr
    obtain ⟨c, k, msg, hmem⟩ := inv.errored_iff.mp herr
    obtain ⟨hc, he⟩ := inv.shown_from c k _ hmem
    obtain ⟨hwf, t, hterm⟩ := hall c hc
    rcases mem_dropLast_or_last _ _ he with h1 | h1
    · have := hwf _ h1
      simp [Event.isError] at this
    · rw [terminal, h1] at hterm
      simp at hterm

/-- C6, as the code has it. In every state the loop of `main` reaches, when the
next iteration receives the event `e` on the channel standing for task `k`:
if `ctx.Done()` is still open, the entry `dst[k]` becomes the text of `e`
(prefixed with `"error: "` for an error) and no other entry changes; if
`ctx.Done()` is closed, by `cancel()` or by an interrupt signal, the event is
dropped and `dst` does not change at all. Hence `dst[k]` always is the text of
the last event of task `k` that was received while `ctx.Done()` was open, and
the empty text if there was none. -/
theorem status_entry_update (dch : List Chan) (chans : Chan → List Event) (picks : List Pick)
    (s : Orch) (hrun : loopRun (initOrch dch chans) picks = some s) :
    (∀ (pk : Pick) (c : Chan) (k : Nat) (e : Event) (rest : List Event),
        s.sch[pk.chosen]? = some c → s.sci[pk.chosen]? = some k → s.chans c = e :: rest →
        ∃ s1, selectStep s pk = some s1 ∧
          ((s.done || pk.interrupted) = false →
            s1.dst[k]? = some (statusText e) ∧ ∀ j, j ≠ k → s1.dst[j]? = s.dst[j]?) ∧
          ((s.done || pk.interrupted) = true → s1.dst = s.dst)) ∧
      (∀ k < dch.length, s.dst[k]? = some (shownText k s.log)) := by
  have inv := LoopInv.of_run dch chans picks s hrun
  refine ⟨?_, inv.dst_eq⟩
  intro pk c k e rest hc hk hch
  have hdc := inv.chan_at hc hk
  have hlt : k < s.dst.length := by
    rw [List.getElem?_eq_some_iff] at hdc
    rw [inv.dst_len]
    exact hdc.1
  unfold selectStep
  simp only [hc, hk, hch]
  by_cases hd : (s.done || pk.interrupted) = true
  · simp only [hd, if_true]
    exact ⟨_, rfl, by simp, fun _ => rfl⟩
  · simp only [hd, hlt, if_true, if_false]
    cases e with
    | str status =>
      refine ⟨_, rfl, fun _ => ⟨?_, fun j hj => ?_⟩, fun h => Bool.noConfusion h⟩
      · simp [List.getElem?_set_self hlt, statusText]
      · simp [List.getElem?_set_ne (Ne.symm hj)]
    | error status =>
      refine ⟨_, rfl, fun _ => ⟨?_, fun j hj => ?_⟩, fun h => Bool.noConfusion h⟩
      · simp [List.getElem?_set_self hlt, statusText]
      · simp [List.getElem?_set_ne (Ne.symm hj)]

/-! ## Downloading -/

theorem copyLoop_clean (F : Option (Nat → Event)) (reads : List ReadIn)
    (hclean : cleanStream reads = true) : ∀ (c : countReader) (w : Bytes),
    (copyLoop F c w reads).fin = .done ∧
      (copyLoop F c w reads).written = w ++ streamedBytes reads ∧
      (copyLoop F c w reads).c.N = c.N + (streamedBytes reads).length := by
  induction reads with
  | nil => simp [cleanStream] at hclean
  | cons r rest ih =>
    intro c w
    simp only [cleanStream, Bool.and_eq_true, Bool.or_eq_true, beq_iff_eq] at hclean
    obtain ⟨hw, herr⟩ := hclean
    have hwr : (if 0 < r.data.length then r.writeErr else none) = none := by
      rcases hw with hw | hw
      · simp [hw]
      · split
        · exact Option.isNone_iff_eq_none.mp hw
        · rfl
    have hread : ∀ x, (c.Read F r) = x → x.2.2.1 = r.data ∧ x.2.2.2 = r.err ∧
        x.1.N = c.N + r.data.length := by
      intro x hx
      subst hx
      unfold countReader.Read
      cases F <;> simp
    unfold copyLoop
    rcases hx : c.Read F r with ⟨c1, acts, data, er⟩
    obtain ⟨h1, h2, h3⟩ := hread _ hx
    simp only at h1 h2 h3
    subst h1 h2
    simp only [hwr]
    cases her : r.err with
    | eof => simp [streamedBytes, her, h3]
    | fail e => simp [her] at herr
    | none =>
      simp only [her] at herr
      obtain ⟨i1, i2, i3⟩ := ih herr c1 (w ++ r.data)
      simp only [streamedBytes, her, i1, i2, i3, h3, List.append_assoc, List.length_append,
        Nat.add_assoc, and_self]

theorem write_other (fs : FS) (name other : String) (data : Bytes) (h : other ≠ name) :
    (fs.write name data) other = fs other := by
  simp [FS.write, h]

theorem write_same (fs : FS) (name : String) (data : Bytes) :
    (fs.write name data) name = some data := by
  simp [FS.write]

theorem downloadStep_fs (L : Lib) (res : BuildResponse) (n : Nat) (x : Image) (d : DlIn)
    (fs : FS) :
    ((downloadStep L res n x d fs).fs = fs ∧ (downloadStep L res n x d fs).fin = .halted) ∨
      (fs d.tmpName = none ∧ ∃ content,
        (downloadStep L res n x d fs).fs = fs.write d.tmpName content ∧
        (downloadStep L res n x d fs).fin ≠ .next) ∨
      (fs d.tmpName = none ∧ ∃ content, (fs.write d.tmpName content) x.Name = none ∧
        (downloadStep L res n x d fs).fs = (fs.write d.tmpName content).rename d.tmpName x.Name ∧
        (downloadStep L res n x d fs).fin = .next) := by
  unfold downloadStep
  split
  · exact Or.inl ⟨rfl, rfl⟩
  · split
    · exact Or.inl ⟨rfl, rfl⟩
    · split
      · exact Or.inl ⟨rfl, rfl⟩
      · split
        · exact Or.inl ⟨rfl, rfl⟩
        · split
          · exact Or.inl ⟨rfl, rfl⟩
          · rename_i hfresh
            have hfresh1 : fs d.tmpName = none := by
              cases h : fs d.tmpName with
              | none => rfl
              | some b => simp [h] at hfresh
            simp only
            split
            · exact Or.inr (Or.inl ⟨hfresh1, _, rfl, by simp⟩)
            · exact Or.inr (Or.inl ⟨hfresh1, _, rfl, by simp⟩)
            · split
              · exact Or.inr (Or.inl ⟨hfresh1, _, rfl, by simp⟩)
              · split
                · exact Or.inr (Or.inl ⟨hfresh1, _, rfl, by simp⟩)
                · split
                  · exact Or.inr (Or.inl ⟨hfresh1, _, rfl, by simp⟩)
                  · split
                    · exact Or.inr (Or.inl ⟨hfresh1, _, rfl, by simp⟩)
                    · rename_i hfree
                      split
                      · exact Or.inr (Or.inl ⟨hfresh1, _, rfl, by simp⟩)
                      · refine Or.inr (Or.inr ⟨hfresh1, _, ?_, rfl, rfl⟩)
                        cases h : (fs.write d.tmpName
                            (copyLoop (some (progressF L n res.Images.length x.Name
                              d.contentLength)) { N := 0 } [] d.reads).written) x.Name with
                        | none => rfl
                        | some b => simp [h] at hfree

theorem downloadStep_existing (L : Lib) (res : BuildResponse) (n : Nat) (x : Image) (d : DlIn)
    (fs : FS) (old : Bytes) (hold : fs x.Name = some old) :
    (downloadStep L res n x d fs).fin ≠ .next ∧
      (downloadStep L res n x d fs).fs x.Name = some old := by
  rcases downloadStep_fs L res n x d fs with ⟨h1, h2⟩ | ⟨hf, content, h1, h2⟩ |
    ⟨hf, content, h0, _, _⟩
  · rw [h1, h2]
    exact ⟨by simp, hold⟩
  · have hne : x.Name ≠ d.tmpName := by
      intro h
      rw [h, hf] at hold
      simp at hold
    rw [h1, write_other _ _ _ _ hne]
    exact ⟨h2, hold⟩
  · exfalso
    by_cases hne : x.Name = d.tmpName
    · rw [hne, write_same] at h0
      simp at h0
    · rw [write_other _ _ _ _ hne, hold] at h0
      simp at h0

theorem copyLoop_clean_zero (F : Option (Nat → Event)) (reads : List ReadIn)
    (hclean : cleanStream reads = true) :
    (copyLoop F { N := 0 } [] reads).fin = .done ∧
      (copyLoop F { N := 0 } [] reads).written = streamedBytes reads ∧
      (copyLoop F { N := 0 } [] reads).c.N = (streamedBytes reads).length := by
  obtain ⟨h1, h2, h3⟩ := copyLoop_clean F reads hclean { N := 0 } []
  exact ⟨h1, by simpa using h2, by simpa using h3⟩

/-- C7, as the code has it. In the download of an image that is not stopped by
cancellation, whose request is answered, whose temporary file is created under a
name other than the image name, and whose byte stream is read to its end and
written with no error: (1) if the digest of the streamed bytes is the expected
one, no file has the image name, and syncing, closing and renaming the temporary
file succeed, then afterwards the file named after the image holds exactly the
streamed bytes (as many as the `countReader` has counted, with the expected
digest), the temporary name is free again, no other file has changed, and no
error has been sent; (2) if the digest differs, the last event is the error
`download <name>: expected sha256:<expected>, got sha256:<actual>`, the worker
returns, and what is stored under the image name has not changed. -/
theorem download_round_trip (L : Lib) (res : BuildResponse) (n : Nat) (x : Image) (d : DlIn)
    (fs : FS) (hc : d.cancelled = false) (hreq : d.reqErr = none) (hdo : d.doErr = none)
    (htmp : d.tmpErr = none) (hfresh : fs d.tmpName = none) (hname : d.tmpName ≠ x.Name)
    (hclean : cleanStream d.reads = true) :
    (L.sha256hex (streamedBytes d.reads) = x.SHA256 → fs x.Name = none →
        d.syncErr = none → d.closeErr = none → d.renameErr = none →
        (downloadStep L res n x d fs).fin = .next ∧
        (downloadStep L res n x d fs).fs x.Name = some (streamedBytes d.reads) ∧
        (streamedBytes d.reads).length =
          (copyLoop (some (progressF L n res.Images.length x.Name d.contentLength))
            { N := 0 } [] d.reads).c.N ∧
        (downloadStep L res n x d fs).fs d.tmpName = none ∧
        (∀ name, name ≠ x.Name → name ≠ d.tmpName →
          (downloadStep L res n x d fs).fs name = fs name) ∧
        Quiet (downloadStep L res n x d fs).acts) ∧
      (L.sha256hex (streamedBytes d.reads) ≠ x.SHA256 →
        (downloadStep L res n x d fs).fin = .halted ∧
        (downloadStep L res n x d fs).fs x.Name = fs x.Name ∧
        ∃ pre, events (downloadStep L res n x d fs).acts =
            pre ++ [dlError x ("expected sha256:" ++ x.SHA256 ++ ", got sha256:"
              ++ L.sha256hex (streamedBytes d.reads))] ∧
          ∀ e ∈ pre, e.isError = false) := by
  obtain ⟨h1, h2, h3⟩ := copyLoop_clean_zero
    (some (progressF L n res.Images.length x.Name d.contentLength)) d.reads hclean
  have hshape := downloadStep_shape L res n x d fs
  refine ⟨?_, ?_⟩
  · intro hsha hfree hsync hclose hren
    have hfree1 : (fs.write d.tmpName (streamedBytes d.reads)) x.Name = none := by
      rw [write_other _ _ _ _ (Ne.symm hname)]
      exact hfree
    have hstep : downloadStep L res n x d fs =
        ⟨(downloadStep L res n x d fs).acts,
          (fs.write d.tmpName (streamedBytes d.reads)).rename d.tmpName x.Name,
          [d.tmpName], .next⟩ := by
      unfold downloadStep
      simp [hc, hreq, hdo, htmp, hfresh, h1, h2, hsha, hsync, hclose, hren, hfree1]
    have hfin : (downloadStep L res n x d fs).fin = .next := by rw [hstep]
    have hfs : (downloadStep L res n x d fs).fs =
        (fs.write d.tmpName (streamedBytes d.reads)).rename d.tmpName x.Name := by rw [hstep]
    rw [hfin] at hshape
    refine ⟨hfin, ?_, h3.symm, ?_, ?_, hshape⟩
    · rw [hfs]
      simp [FS.rename, FS.write]
    · rw [hfs]
      simp [FS.rename, FS.write, hname]
    · intro name hn1 hn2
      rw [hfs]
      simp [FS.rename, FS.write, hn1, hn2]
  · intro hsha
    have hstep : downloadStep L res n x d fs =
        ⟨(downloadStep L res n x d fs).acts, fs.write d.tmpName (streamedBytes d.reads),
          [d.tmpName], .halted⟩ ∧
        ∃ a, Quiet a ∧ (downloadStep L res n x d fs).acts =
          a ++ [.send (dlError x ("expected sha256:" ++ x.SHA256 ++ ", got sha256:"
              ++ L.sha256hex (streamedBytes d.reads)))] := by
      have hF := progressF_not_error L n res.Images.length x.Name d.contentLength
      have hcp := copyLoop_quiet _ hF d.reads { N := 0 } []
      unfold downloadStep
      simp only [hc, hreq, hdo, htmp, hfresh, h1, h2, hsha, Bool.false_eq_true, if_false,
        Option.isSome_none, ne_eq, not_false_eq_true, if_true, true_and]
      refine ⟨_, ?_, rfl⟩
      refine Quiet.append (Quiet.append (Quiet.append (Quiet.send_str _) ?_) ?_) hcp
      · intro e he
        simp [events] at he
      · intro e he
        simp [events] at he
        subst he
        exact hF 0
    obtain ⟨hrec, a, hq, hacts⟩ := hstep
    refine ⟨by rw [hrec], ?_, events a, ?_, hq⟩
    · rw [hrec]
      exact write_other _ _ _ _ (Ne.symm hname)
    · rw [hacts, events_append]
      rfl

/-- C8, as the code has it. When a file already has the name of the image at the
start of its download: the download never goes on to the next image (the loop
ends with this iteration); whenever the iteration returns it has sent exactly one
error, as its last event; the content stored under the image name is unchanged;
and the error is `download <name>: output file already exists` when the
iteration gets as far as the existence check, that is when it is not stopped by
cancellation, the request is answered, the temporary file is created, the stream
is read to its end and written with no error, the digest is the expected one, and
syncing and closing the temporary file succeed. A failure before the check is
reported in its place. -/
theorem download_onto_existing (L : Lib) (res : BuildResponse) (n : Nat) (x : Image)
    (xs : List Image) (d : DlIn) (ds : List DlIn) (fs : FS) (old : Bytes)
    (hold : fs x.Name = some old) :
    (downloadStep L res n x d fs).fin ≠ .next ∧
      downloadLoop L res n (x :: xs) (d :: ds) fs = downloadStep L res n x d fs ∧
      ((downloadStep L res n x d fs).fin = .halted → Halts (downloadStep L res n x d fs).acts) ∧
      (downloadStep L res n x d fs).fs x.Name = some old ∧
      (d.cancelled = false → d.reqErr = none → d.doErr = none → d.tmpErr = none →
        fs d.tmpName = none → cleanStream d.reads = true →
        L.sha256hex (streamedBytes d.reads) = x.SHA256 → d.syncErr = none →
        d.closeErr = none →
        (downloadStep L res n x d fs).fin = .halted ∧
        ∃ pre, events (downloadStep L res n x d fs).acts =
            pre ++ [.error ("download " ++ x.Name ++ ": output file already exists")] ∧
          ∀ e ∈ pre, e.isError = false) := by
  obtain ⟨hnext, hkeep⟩ := downloadStep_existing L res n x d fs old hold
  have hshape := downloadStep_shape L res n x d fs
  refine ⟨hnext, ?_, ?_, hkeep, ?_⟩
  · rw [downloadLoop]
    cases hfin : (downloadStep L res n x d fs).fin with
    | next => exact absurd hfin hnext
    | halted => rfl
    | starved => rfl
  · intro hfin
    rw [hfin] at hshape
    exact hshape
  · intro hc hreq hdo htmp hfresh hclean hsha hsync hclose
    obtain ⟨h1, h2, _⟩ := copyLoop_clean_zero
      (some (progressF L n res.Images.length x.Name d.contentLength)) d.reads hclean
    have hne : x.Name ≠ d.tmpName := by
      intro h
      rw [h, hfresh] at hold
      simp at hold
    have hocc : (fs.write d.tmpName (streamedBytes d.reads)) x.Name = some old := by
      rw [write_other _ _ _ _ hne]
      exact hold
    have hF := progressF_not_error L n res.Images.length x.Name d.contentLength
    have hcp := copyLoop_quiet _ hF d.reads { N := 0 } []
    have hstep : (downloadStep L res n x d fs).fin = .halted ∧
        ∃ a, Quiet a ∧ (downloadStep L res n x d fs).acts =
          a ++ [.send (dlError x "output file already exists")] := by
      unfold downloadStep
      simp only [hc, hreq, hdo, htmp, hfresh, h1, h2, hsha, hsync, hclose, hocc,
        Bool.false_eq_true, if_false, Option.isSome_none, Option.isSome_some, ne_eq,
        not_true_eq_false, if_true, true_and]
      refine ⟨_, ?_, rfl⟩
      refine Quiet.append (Quiet.append (Quiet.append (Quiet.send_str _) ?_) ?_) hcp
      · intro e he
        simp [events] at he
      · intro e he
        simp [events] at he
        subst he
        exact hF 0
    obtain ⟨hfin, a, hq, hacts⟩ := hstep
    refine ⟨hfin, events a, ?_, hq⟩
    have hlit : ": " ++ "output file already exists" = ": output file already exists" := by
      decide
    rw [hacts, events_append]
    simp only [events, dlError, String.append_assoc, hlit]

/-! ## The progress callback -/

theorem digitChar_ne_bracket (m : Nat) (h : m < 10) : Nat.digitChar m ≠ '[' := by
  interval_cases m <;> decide

theorem toDigitsCore_no_bracket (fuel : Nat) : ∀ (m : Nat) (ds : List Char),
    (∀ c ∈ ds, c ≠ '[') → ∀ c ∈ Nat.toDigitsCore 10 fuel m ds, c ≠ '[' := by
  induction fuel with
  | zero => intro m ds hds c hc; exact hds c (by simpa [Nat.toDigitsCore] using hc)
  | succ fuel ih =>
    intro m ds hds c hc
    have hd : ∀ c ∈ Nat.digitChar (m % 10) :: ds, c ≠ '[' := by
      intro c hc
      rcases List.mem_cons.mp hc with rfl | hc
      · exact digitChar_ne_bracket _ (Nat.mod_lt _ (by decide))
      · exact hds c hc
    simp only [Nat.toDigitsCore] at hc
    split at hc
    · exact hd c hc
    · exact ih _ _ hd c hc

theorem toDigitsCore_ne_nil (fuel : Nat) : ∀ (m : Nat) (ds : List Char),
    (0 < fuel ∨ ds ≠ []) → Nat.toDigitsCore 10 fuel m ds ≠ [] := by
  induction fuel with
  | zero =>
    intro m ds h
    rcases h with h | h
    · omega
    · simpa [Nat.toDigitsCore] using h
  | succ fuel ih =>
    intro m ds _
    simp only [Nat.toDigitsCore]
    split
    · simp
    · exact ih _ _ (Or.inr (by simp))

theorem repr_head (m : Nat) :
    ∃ c rest, (toString m).data = c :: rest ∧ c ≠ '[' := by
  have hdata : (toString m).data = Nat.toDigitsCore 10 (m + 1) m [] := rfl
  have hne := toDigitsCore_ne_nil (m + 1) m [] (Or.inl (Nat.succ_pos m))
  have hall := toDigitsCore_no_bracket (m + 1) m [] (by simp)
  rw [hdata]
  cases hl : Nat.toDigitsCore 10 (m + 1) m [] with
  | nil => exact absurd hl hne
  | cons c rest => exact ⟨c, rest, rfl, hall c (by simp [hl])⟩

theorem copyLoop_events (F : Nat → Event) (reads : List ReadIn) :
    ∀ (c : countReader) (w : Bytes),
    events (copyLoop (some F) c w reads).acts = (runningTotals c.N (readsMade reads)).map F := by
  induction reads with
  | nil => intro c w; rfl
  | cons r rest ih =>
    intro c w
    simp only [copyLoop, countReader.Read, readsMade]
    by_cases hw : 0 < r.data.length ∧ r.writeErr.isSome = true
    · obtain ⟨b, hb⟩ := Option.isSome_iff_exists.mp hw.2
      simp [hw, hb, hw.1, events, runningTotals]
    · have hwr : (if 0 < r.data.length then r.writeErr else none) = none := by
        split
        · rename_i hpos
          cases hb : r.writeErr with
          | none => rfl
          | some b => exact absurd ⟨hpos, by simp [hb]⟩ hw
        · rfl
      simp only [hwr, hw, if_false]
      cases her : r.err with
      | eof => simp [events, runningTotals]
      | fail e => simp [events, runningTotals]
      | none =>
        simp only [events_append, ih, runningTotals, List.map_cons]
        rfl

/-- C9, at a response of unknown length. With `resp.ContentLength = -1` the
callback sends the text of the known-total form, `downloading [i/N] <name>
(<done>/<total> MiB) <pct>%` with the total and the percentage computed from
`-1`, and not the text `downloading i/N <name> (<done>/... MiB)`; the latter is
sent only for `resp.ContentLength = 0`. The callback itself is called once per
read, with the number of bytes read so far in all. -/
theorem progress_unknown_length (L : Lib) (i total : Nat) (name : String) (n : Nat) :
    progressF L i total name (-1) n =
        .str ("downloading [" ++ toString (i + 1) ++ "/" ++ toString total ++ "] " ++ name
          ++ " (" ++ L.fmtMiB n ++ "/" ++ L.fmtMiB (-1) ++ " MiB) " ++ L.fmtPct n (-1) ++ "%") ∧
      progressF L i total name (-1) n ≠
        .str ("downloading " ++ toString (i + 1) ++ "/" ++ toString total ++ " " ++ name
          ++ " (" ++ L.fmtMiB n ++ "/... MiB)") ∧
      progressF L i total name 0 n =
        .str ("downloading " ++ toString (i + 1) ++ "/" ++ toString total ++ " " ++ name
          ++ " (" ++ L.fmtMiB n ++ "/... MiB)") ∧
      (∀ (c : countReader) (w : Bytes) (reads : List ReadIn) (cl : Int),
        events (copyLoop (some (progressF L i total name cl)) c w reads).acts =
          (runningTotals c.N (readsMade reads)).map (progressF L i total name cl)) := by
  refine ⟨by simp [progressF], ?_, by simp [progressF],
    fun c w reads cl => copyLoop_events _ reads c w⟩
  intro h
  simp only [progressF, Int.reduceNeg, ne_eq, Int.reduceEq, not_false_eq_true, if_true,
    Event.str.injEq] at h
  have hd := congrArg String.data h
  obtain ⟨ch, rest, hrepr, hch⟩ := repr_head (i + 1)
  simp only [String.data_append, List.append_assoc, hrepr] at hd
  simp only [List.cons_append, List.nil_append, List.cons.injEq, true_and] at hd
  exact hch hd.1.symm

/-! # Evaluations on the sample inputs -/

theorem asu1_one_terminal_event_witness :
    (asu1 sampleLib sampleWorld emptyFS).closed = true ∧
      ∃ pre last, events (asu1 sampleLib sampleWorld emptyFS).acts = pre ++ [last] ∧
        (∀ e ∈ pre, e.isError = false) ∧
        (last.isError = true ∨
          ∃ res, (pollLoop "" sampleWorld.polls).2 = .result res ∧
            last = .str ("done: " ++ res.ImagePrefix)) :=
  ⟨by decide, asu1_one_terminal_event sampleLib sampleWorld emptyFS (by decide)⟩

theorem poll_uses_latest_handle_witness :
    (∀ j ∈ [pollQueued, pollBuilding], j.inProgress = true) ∧
      latestHandle "" [pollQueued, pollBuilding] = "abc" ∧
      pollBuilding.cancelled = false ∧ statusBuilding.Status = 202 ∧
      netCalls (pollLoop "" [pollQueued, pollBuilding]).1 = [.submit, .status "abc"] ∧
      (pollLoop "" [pollQueued, pollBuilding]).1 =
        [.send (.str "submitting request"), .submit, .send (.str "queued"), .sleep,
          .status "abc", .send (.str "building"), .sleep] ∧
      pollLoop "" ([pollQueued, pollBuilding] ++ pollBuilding :: [pollCancelled]) =
        ((pollLoop "" [pollQueued, pollBuilding]).1 ++
            ([.status (latestHandle "" [pollQueued, pollBuilding]),
                .send (.str statusBuilding.Detail), .sleep] ++
              (pollLoop (latestHandle "" ([pollQueued, pollBuilding] ++ [pollBuilding]))
                [pollCancelled]).1),
          (pollLoop (latestHandle "" ([pollQueued, pollBuilding] ++ [pollBuilding]))
            [pollCancelled]).2) ∧
      pollLoop "" ([pollQueued, pollBuilding] ++ pollBuilding :: [pollCancelled]) =
        ([.send (.str "submitting request"), .submit, .send (.str "queued"), .sleep,
          .status "abc", .send (.str "building"), .sleep,
          .status "abc", .send (.str "building"), .sleep,
          .send (.error "context canceled")], .halted) :=
  ⟨by decide, by decide, rfl, rfl,
    (poll_uses_latest_handle [pollQueued, pollBuilding] pollBuilding [pollCancelled]
      (by decide) (by decide)).1.trans (by decide),
    by decide,
    (poll_uses_latest_handle [pollQueued, pollBuilding] pollBuilding [pollCancelled]
      (by decide) (by decide)).2.2.1 statusBuilding rfl rfl rfl,
    by decide⟩

theorem value_and_failed_status_witness :
    ¬ (status500.Status = 200 ∨ status500.Status = 202) ∧
      (∀ j ∈ [pollQueued], j.inProgress = true) ∧
      ∃ msg, asu1 sampleLib ⟨[pollQueued] ++ pollFailed :: [], none, []⟩ emptyFS =
          ⟨(pollLoop "" [pollQueued]).1 ++ callActs (latestHandle "" [pollQueued])
            ++ [.send (.error msg)], emptyFS, true⟩ ∧
        Contains msg status500.Detail ∧ Contains msg (toString status500.Status) :=
  ⟨by decide, by decide,
    ((value_and_failed_status status500).2 (by decide)).2 sampleLib emptyFS [pollQueued]
      pollFailed [] none [] (by decide) rfl rfl⟩

theorem cancelled_halts_without_call_witness :
    pollCancelled.cancelled = true ∧
      asu1 sampleLib ⟨pollCancelled :: [pollQueued], none, []⟩ emptyFS =
        ⟨[.send (.error ctxErr)], emptyFS, true⟩ ∧
      (∀ j ∈ [pollQueued], j.inProgress = true) ∧
      asu1 sampleLib ⟨[pollQueued] ++ pollCancelled :: [], none, []⟩ emptyFS =
        ⟨(pollLoop "" [pollQueued]).1 ++ [.send (.error ctxErr)], emptyFS, true⟩ :=
  ⟨rfl,
    (cancelled_halts_without_call sampleLib emptyFS).2.2
      ⟨pollCancelled :: [pollQueued], none, []⟩ pollCancelled [pollQueued] rfl rfl,
    by decide,
    ((cancelled_halts_without_call sampleLib emptyFS).1 [pollQueued] pollCancelled [] none []
      (by decide) rfl).2⟩

theorem fan_in_bookkeeping_witness :
    loopRun (initOrch [10, 11] streamsSibling) picksSibling = some finalSibling ∧
      (closedTasks finalSibling.log ++ finalSibling.sci).Perm (List.range [10, 11].length) ∧
      (finalSibling.sch.length = 0 ↔ (closedTasks finalSibling.log).length = [10, 11].length) ∧
      (finalSibling.sci, finalSibling.sch, closedTasks finalSibling.log) = ([], [], [0, 1]) ∧
      finalSibling.log.length = picksSibling.length ∧
      [10, 11].Nodup ∧
      receivedBy 1 finalSibling.log = streamsSibling 11 ∧
      receivedBy 1 finalSibling.log =
        [.str "submitting request", .str "queued", .error "context canceled"] ∧
      loopRun (initOrch [10, 11] streamsSibling) (picksSibling.take 5) = some midSibling ∧
      (midSibling.sci, midSibling.sch, midSibling.chans 10) = ([0, 1], [10, 11], []) ∧
      (∃ s1, selectStep midSibling ⟨0, false⟩ = some s1 ∧
        s1.sci = midSibling.sci.eraseIdx 0 ∧ s1.sch = midSibling.sch.eraseIdx 0 ∧
        s1.sch.length + 1 = midSibling.sch.length ∧
        0 ∉ s1.sci ∧ (∀ j ∈ midSibling.sci, j ≠ 0 → j ∈ s1.sci) ∧
        0 ∉ closedTasks midSibling.log ∧
        closedTasks s1.log = closedTasks midSibling.log ++ [0] ∧
        s1.log = midSibling.log ++ [.closed 10 0] ∧
        s1.dst = midSibling.dst ∧ s1.errored = midSibling.errored ∧
        s1.done = midSibling.done) ∧
      (selectStep midSibling ⟨0, false⟩).map (fun s => (s.sci, s.sch)) = some ([1], [11]) :=
  ⟨rfl,
    (fan_in_bookkeeping [10, 11] streamsSibling picksSibling finalSibling rfl).2.2.2.2.1,
    (fan_in_bookkeeping [10, 11] streamsSibling picksSibling finalSibling rfl).2.2.2.2.2.2.1,
    by decide,
    (fan_in_bookkeeping [10, 11] streamsSibling picksSibling finalSibling
      rfl).2.2.2.2.2.2.2.2.2.2.2.2.2.1,
    by decide,
    ((fan_in_bookkeeping [10, 11] streamsSibling picksSibling finalSibling
      rfl).2.2.2.2.2.2.2.2.2.2.2.2.2.2.2 (by decide) 1 11 rfl).2 (by decide),
    by decide,
    rfl,
    by decide,
    (fan_in_bookkeeping [10, 11] streamsSibling (picksSibling.take 5) midSibling
      rfl).2.2.2.2.2.2.2.2.2.2.1 ⟨0, false⟩ 10 0 rfl rfl (by decide),
    by decide⟩

theorem exit_code_of_drained_run_witness :
    loopRun (initOrch [10, 11] streamsSibling) picksSibling = some finalSibling ∧
      finalSibling.sch.length = 0 ∧
      (∀ pk ∈ picksSibling, pk.interrupted = false) ∧
      (∃ c ∈ [10, 11], ∃ msg, terminal (streamsSibling c) = some (.error msg)) ∧
      mainExit [10, 11] streamsSibling picksSibling = some (exitCode finalSibling) ∧
      exitCode finalSibling = 1 :=
  ⟨rfl, by decide, by decide, ⟨10, by decide, "build failed: unsupported target (status 500)", by decide⟩,
    (exit_code_of_drained_run [10, 11] streamsSibling picksSibling finalSibling rfl
      (by decide)).1,
    (exit_code_of_drained_run [10, 11] streamsSibling picksSibling finalSibling rfl
      (by decide)).2.2.2.1 (by decide) ⟨10, by decide, "build failed: unsupported target (status 500)", by decide⟩⟩

/-- C1, refuted as stated. Two workers are polling when an interrupt signal is
delivered; both find the context cancelled, send the cancellation error as their
terminal event and return. The loop of `main` drops both errors, because
`ctx.Done()` is closed when they arrive, and the exit code is 0. -/
theorem exit_code_after_interrupt :
    (asu1 sampleLib worldCancelled emptyFS).closed = true ∧
      terminal (streamsInterrupted 10) = some (.error "context canceled") ∧
      terminal (streamsInterrupted 11) = some (.error "context canceled") ∧
      mainExit [10, 11] streamsInterrupted picksInterrupted = some 0 := by
  decide

theorem status_entry_update_witness :
    loopRun (initOrch [10, 11] streamsSibling) picksSibling = some finalSibling ∧
      finalSibling.dst[1]? = some (shownText 1 finalSibling.log) :=
  ⟨rfl,
    (status_entry_update [10, 11] streamsSibling picksSibling finalSibling rfl).2 1
      (by decide)⟩

/-- C6, refuted as stated. The build of the first worker fails; the loop stores
the error and cancels. The second worker then sends `queued` and, as its
terminal event, the cancellation error; both arrive when `ctx.Done()` is closed
and are dropped, so that when all channels are closed the entry of the second
task still is `submitting request`. -/
theorem status_dropped_after_cancel :
    streamsSibling 11 =
        [.str "submitting request", .str "queued", .error "context canceled"] ∧
      (loopRun (initOrch [10, 11] streamsSibling) picksSibling).map (fun s => (s.sch, s.dst)) =
        some ([], ["error: build failed: unsupported target (status 500)",
          "submitting request"]) := by
  decide

theorem download_round_trip_witness :
    cleanStream sampleDl.reads = true ∧
      sampleLib.sha256hex (streamedBytes sampleDl.reads) = imageBin.SHA256 ∧
      emptyFS imageBin.Name = none ∧
      (downloadStep sampleLib sampleResult 0 imageBin sampleDl emptyFS).fin = .next ∧
      (downloadStep sampleLib sampleResult 0 imageBin sampleDl emptyFS).fs imageBin.Name =
        some (streamedBytes sampleDl.reads) :=
  ⟨by decide, by decide, rfl,
    ((download_round_trip sampleLib sampleResult 0 imageBin sampleDl emptyFS rfl rfl rfl rfl rfl
      (by decide) (by decide)).1 (by decide) rfl rfl rfl rfl).1,
    ((download_round_trip sampleLib sampleResult 0 imageBin sampleDl emptyFS rfl rfl rfl rfl rfl
      (by decide) (by decide)).1 (by decide) rfl rfl rfl rfl).2.1⟩

/-- C7, refuted as stated. The stream is read to its end with no error, its
digest is the expected one and no file has the image name, but `f.Sync()`
fails: the worker sends `download image.bin: input/output error` and returns,
and no file `image.bin` exists afterwards. -/
theorem download_sync_failure :
    cleanStream syncFailDl.reads = true ∧
      sampleLib.sha256hex (streamedBytes syncFailDl.reads) = imageBin.SHA256 ∧
      emptyFS imageBin.Name = none ∧
      (downloadStep sampleLib sampleResult 0 imageBin syncFailDl emptyFS).fin = .halted ∧
      (downloadStep sampleLib sampleResult 0 imageBin syncFailDl emptyFS).fs imageBin.Name
        = none ∧
      (asu1 sampleLib worldSyncFail emptyFS).closed = true ∧
      (events (asu1 sampleLib worldSyncFail emptyFS).acts).getLast? =
        some (.error "download image.bin: input/output error") ∧
      (asu1 sampleLib worldSyncFail emptyFS).fs "image.bin" = none := by
  decide

theorem download_onto_existing_witness :
    occupiedFS imageBin.Name = some [9, 9] ∧
      (downloadStep sampleLib sampleResult 0 imageBin sampleDl occupiedFS).fs imageBin.Name =
        some [9, 9] ∧
      (downloadStep sampleLib sampleResult 0 imageBin sampleDl occupiedFS).fin = .halted :=
  ⟨rfl,
    (download_onto_existing sampleLib sampleResult 0 imageBin [] sampleDl [] occupiedFS [9, 9]
      rfl).2.2.2.1,
    ((download_onto_existing sampleLib sampleResult 0 imageBin [] sampleDl [] occupiedFS [9, 9]
      rfl).2.2.2.2 rfl rfl rfl rfl rfl (by decide) (by decide) rfl rfl).1⟩

/-- C8, refuted as stated. A file `image.bin` exists before the download of the
image `image.bin`. When the request fails, the terminal event is
`download image.bin: connection refused`; when the digest of the stream is not
the expected one, it is the checksum error; when the context is cancelled, it
is the cancellation error. None of them is the error `output file already
exists`, which is only reached after the download and the digest check. -/
theorem download_fails_before_existence_check :
    occupiedFS imageBin.Name = some [9, 9] ∧
      (events (downloadStep sampleLib sampleResult 0 imageBin refusedDl occupiedFS).acts).getLast?
        = some (.error "download image.bin: connection refused") ∧
      (events (downloadStep sampleLib sampleResult 0 imageBin corruptDl occupiedFS).acts).getLast?
        = some (.error "download image.bin: expected sha256:6, got sha256:7") ∧
      (events (downloadStep sampleLib sampleResult 0 imageBin cancelledDl occupiedFS).acts).getLast?
        = some (.error "context canceled") ∧
      (events (downloadStep sampleLib sampleResult 0 imageBin sampleDl occupiedFS).acts).getLast?
        = some (.error "download image.bin: output file already exists") := by
  decide

end Asu
